import Mathlib

set_option autoImplicit false
set_option maxHeartbeats 1000000
set_option linter.unusedSectionVars false

/- Shallow embedding of src/dhcp/lease_pool.py and src/nat/nat_table.py.

   Python dicts are modelled as insertion-ordered association lists with
   the operations dget (dict lookup), dset (dict assignment) and dpop
   (dict pop with default): assignment to an existing key keeps its
   position, assignment to a fresh key appends at the end, exactly the
   CPython iteration-order semantics that the two modules rely on.

   The same Lease / Mapping object is stored under two dicts in Python,
   so an in-place mutation (lease.expiry = ..., m.last_seen = ...) is
   visible through both indices; the embedding mirrors every such
   mutation by writing the updated record into both association lists.

   IPv4 addresses are modelled by their integer value (Nat); times are
   Int (Python ints); exceptions are modelled with Except Unit, the
   raising call also returning the state the object holds afterwards. -/

deriving instance DecidableEq for Except

def dget {α β : Type} [DecidableEq α] : List (α × β) → α → Option β
  | [], _ => none
  | (a, b) :: t, k => if a = k then some b else dget t k

def dset {α β : Type} [DecidableEq α] : List (α × β) → α → β → List (α × β)
  | [], k, v => [(k, v)]
  | (a, b) :: t, k, v => if a = k then (a, v) :: t else (a, b) :: dset t k v

def dpop {α β : Type} [DecidableEq α] : List (α × β) → α → List (α × β)
  | [], _ => []
  | (a, b) :: t, k => if a = k then t else (a, b) :: dpop t k

/- ---------------- src/dhcp/lease_pool.py ---------------- -/

structure Lease where
  client_id : String
  ip : Nat
  expiry : Int
deriving DecidableEq, Repr

structure LeasePool where
  lease_seconds : Int
  available : List Nat
  leasesByClient : List (String × Lease)
  leasesByIp : List (Nat × Lease)
deriving DecidableEq, Repr

/-- The host addresses of an IPv4 network block, as ipaddress.IPv4Network.hosts
enumerates them: all addresses strictly between network and broadcast address,
except that a /31 yields both addresses and a /32 yields the single address. -/
def hostsOf (netAddr prefixLen : Nat) : List Nat :=
  if 31 ≤ prefixLen then (List.range (2 ^ (32 - prefixLen))).map (fun i => netAddr + i)
  else (List.range (2 ^ (32 - prefixLen) - 2)).map (fun i => netAddr + 1 + i)

/-- LeasePool.__init__: enumerate hosts, add the first host to the exclusion
set (gateway convention) when the host set is nonempty, and build the
available deque from the remaining hosts in order. -/
def LeasePool.init (netAddr prefixLen : Nat) (lease_seconds : Int)
    (exclusions : List Nat) : LeasePool :=
  let hosts := hostsOf netAddr prefixLen
  let excl := match hosts with
    | [] => exclusions
    | h :: _ => h :: exclusions
  { lease_seconds := lease_seconds
    available := hosts.filter (fun ip => decide (ip ∉ excl))
    leasesByClient := []
    leasesByIp := [] }

def LeasePool.available_count (s : LeasePool) : Nat := s.available.length

def LeasePool.active_count (s : LeasePool) (now : Option Int) : Nat :=
  match now with
  | none => s.leasesByClient.length
  | some t => (s.leasesByClient.filter (fun p => decide (t < p.2.expiry))).length

/-- One iteration of the reclaim loop in LeasePool.expire: pop the client,
pop the reverse entry, append the freed ip to the available deque. -/
def expireStep (st : LeasePool) (cid : String) : LeasePool :=
  match dget st.leasesByClient cid with
  | none => st
  | some lease =>
    { st with
      leasesByClient := dpop st.leasesByClient cid
      leasesByIp := dpop st.leasesByIp lease.ip
      available := st.available ++ [lease.ip] }

/-- LeasePool.expire: collect the clients whose lease satisfies
expiry <= now, reclaim each, return the count. -/
def LeasePool.expire (s : LeasePool) (now : Int) : Nat × LeasePool :=
  let expired := (s.leasesByClient.filter (fun p => decide (p.2.expiry ≤ now))).map Prod.fst
  (expired.length, expired.foldl expireStep s)

/-- LeasePool._commit_lease: drop a stale reverse mapping if one exists,
then record the lease under both indices. -/
def LeasePool.commit_lease (s : LeasePool) (lease : Lease) : LeasePool :=
  match dget s.leasesByIp lease.ip with
  | some stale =>
    { s with
      leasesByClient := dset (dpop s.leasesByClient stale.client_id) lease.client_id lease
      leasesByIp := dset s.leasesByIp lease.ip lease }
  | none =>
    { s with
      leasesByClient := dset s.leasesByClient lease.client_id lease
      leasesByIp := dset s.leasesByIp lease.ip lease }

/-- The allocation tail of LeasePool.request: raise if the deque is empty,
else pop the head and commit a fresh lease expiring at now + lease_seconds. -/
def LeasePool.allocNew (s : LeasePool) (client_id : String) (now : Int) :
    Except Unit Nat × LeasePool :=
  match s.available with
  | [] => (Except.error (), s)
  | ip :: rest =>
    (Except.ok ip,
     LeasePool.commit_lease { s with available := rest }
       (Lease.mk client_id ip (now + s.lease_seconds)))

/-- LeasePool.request: sweep expiry, return the live lease address if the
client holds one, otherwise allocate. -/
def LeasePool.request (s : LeasePool) (client_id : String) (now : Int) :
    Except Unit Nat × LeasePool :=
  match dget (s.expire now).2.leasesByClient client_id with
  | some lease =>
    if now < lease.expiry then (Except.ok lease.ip, (s.expire now).2)
    else (s.expire now).2.allocNew client_id now
  | none => (s.expire now).2.allocNew client_id now

/-- LeasePool.renew: sweep expiry; extend a live lease in place (the shared
Lease object makes the new expiry visible through both indices), else fall
back to request. -/
def LeasePool.renew (s : LeasePool) (client_id : String) (now : Int) :
    Except Unit Nat × LeasePool :=
  match dget (s.expire now).2.leasesByClient client_id with
  | some lease =>
    if now < lease.expiry then
      (Except.ok lease.ip,
       { (s.expire now).2 with
         leasesByClient := dset (s.expire now).2.leasesByClient client_id
           { lease with expiry := now + (s.expire now).2.lease_seconds }
         leasesByIp := dset (s.expire now).2.leasesByIp lease.ip
           { lease with expiry := now + (s.expire now).2.lease_seconds } })
    else (s.expire now).2.request client_id now
  | none => (s.expire now).2.request client_id now

/-- LeasePool.release: pop the lease if present (no time check), pop the
reverse entry, append the address to the tail of the available deque. -/
def LeasePool.release (s : LeasePool) (client_id : String) : LeasePool :=
  match dget s.leasesByClient client_id with
  | none => s
  | some lease =>
    { s with
      leasesByClient := dpop s.leasesByClient client_id
      leasesByIp := dpop s.leasesByIp lease.ip
      available := s.available ++ [lease.ip] }

/-- The addresses currently referenced by tracked leases, in index order. -/
def leasedIps (s : LeasePool) : List Nat := s.leasesByClient.map (fun p => p.2.ip)

/- ---------------- src/nat/nat_table.py ---------------- -/

/-- Python str.lower restricted to the ASCII protocol names the module
handles ("tcp", "udp", ...). -/
def strLower (s : String) : String := String.mk (s.data.map Char.toLower)

structure Mapping where
  proto : String
  internal_ip : String
  internal_port : Nat
  external_port : Nat
  last_seen : Int
deriving DecidableEq, Repr

/-- The internal-side dict key of a mapping: (proto, internal_ip, internal_port). -/
def nkey (m : Mapping) : String × String × Nat := (m.proto, m.internal_ip, m.internal_port)

structure NATTable where
  public_ip : String
  pmin : Nat
  pmax : Nat
  timeout : Int
  int2ext : List ((String × String × Nat) × Mapping)
  ext2int : List (Nat × Mapping)
deriving DecidableEq, Repr

def NATTable.init (public_ip : String) (pmin pmax : Nat) (timeout : Int) : NATTable :=
  { public_ip := public_ip, pmin := pmin, pmax := pmax, timeout := timeout
    int2ext := [], ext2int := [] }

/-- The loop of NATTable._alloc_port, with the number of remaining loop
iterations made explicit: scan fuel consecutive ports upward from lo for
the first one that is not a key of _ext2int. -/
def scanPortAux (d : List (Nat × Mapping)) : Nat → Nat → Option Nat
  | _, 0 => none
  | lo, fuel + 1 => if dget d lo = none then some lo else scanPortAux d (lo + 1) fuel

/-- NATTable._alloc_port body: for p in range(lo, hi + 1), return the first
p that no live mapping owns. -/
def scanPort (d : List (Nat × Mapping)) (lo hi : Nat) : Option Nat :=
  scanPortAux d lo (hi + 1 - lo)

def NATTable.allocPort (s : NATTable) : Option Nat := scanPort s.ext2int s.pmin s.pmax

/-- NATTable.translate_out: refresh and return an existing mapping for the
lowercased key, else allocate the lowest free port and index the fresh
mapping both ways. A none from allocPort is the PortExhausted raise. -/
def NATTable.translate_out (s : NATTable) (proto internal_ip : String)
    (internal_port : Nat) (now : Int) : Except Unit (String × Nat) × NATTable :=
  match dget s.int2ext (strLower proto, internal_ip, internal_port) with
  | some m =>
    (Except.ok (s.public_ip, m.external_port),
     { s with
       int2ext := dset s.int2ext (strLower proto, internal_ip, internal_port)
         { m with last_seen := now }
       ext2int := dset s.ext2int m.external_port { m with last_seen := now } })
  | none =>
    match s.allocPort with
    | none => (Except.error (), s)
    | some port =>
      (Except.ok (s.public_ip, port),
       { s with
         int2ext := dset s.int2ext (strLower proto, internal_ip, internal_port)
           (Mapping.mk (strLower proto) internal_ip internal_port port now)
         ext2int := dset s.ext2int port
           (Mapping.mk (strLower proto) internal_ip internal_port port now) })

/-- NATTable.translate_in: look up by external port, optionally refreshing
last_seen, and return the internal tuple. -/
def NATTable.translate_in (s : NATTable) (external_port : Nat) (now : Option Int) :
    Option (String × String × Nat) × NATTable :=
  match dget s.ext2int external_port with
  | none => (none, s)
  | some m =>
    match now with
    | none => (some (nkey m), s)
    | some t =>
      (some (nkey m),
       { s with
         int2ext := dset s.int2ext (nkey m) { m with last_seen := t }
         ext2int := dset s.ext2int external_port { m with last_seen := t } })

/-- NATTable.touch_by_internal: refresh last_seen of an existing mapping. -/
def NATTable.touch_by_internal (s : NATTable) (proto internal_ip : String)
    (internal_port : Nat) (now : Int) : Bool × NATTable :=
  match dget s.int2ext (strLower proto, internal_ip, internal_port) with
  | none => (false, s)
  | some m =>
    (true,
     { s with
       int2ext := dset s.int2ext (strLower proto, internal_ip, internal_port)
         { m with last_seen := now }
       ext2int := dset s.ext2int m.external_port { m with last_seen := now } })

/-- NATTable.release: pop the mapping from both indices if present. -/
def NATTable.release (s : NATTable) (proto internal_ip : String)
    (internal_port : Nat) : Bool × NATTable :=
  match dget s.int2ext (strLower proto, internal_ip, internal_port) with
  | none => (false, s)
  | some m =>
    (true,
     { s with
       int2ext := dpop s.int2ext (strLower proto, internal_ip, internal_port)
       ext2int := dpop s.ext2int m.external_port })

/-- One iteration of the eviction loop of NATTable.expire. -/
def natExpireStep (st : NATTable) (port : Nat) : NATTable :=
  match dget st.ext2int port with
  | none => st
  | some m =>
    { st with
      ext2int := dpop st.ext2int port
      int2ext := dpop st.int2ext (nkey m) }

/-- NATTable.expire: collect the ports whose mapping satisfies
now - last_seen >= timeout, evict each from both indices, return the count. -/
def NATTable.expire (s : NATTable) (now : Int) : Nat × NATTable :=
  let ports := (s.ext2int.filter (fun p => decide (s.timeout ≤ now - p.2.last_seen))).map Prod.fst
  (ports.length, ports.foldl natExpireStep s)

/-- The normalized internal key translate_out derives from its caller
arguments. -/
def normKey (k : String × String × Nat) : String × String × Nat :=
  (strLower k.1, k.2.1, k.2.2)

/-- Run translate_out over a list of (proto, internal_ip, internal_port)
tuples, collecting the per-call results and threading the state. -/
def runOuts (s : NATTable) (ks : List (String × String × Nat)) (now : Int) :
    List (Except Unit (String × Nat)) × NATTable :=
  match ks with
  | [] => ([], s)
  | k :: rest =>
    let r := s.translate_out k.1 k.2.1 k.2.2 now
    let rr := runOuts r.2 rest now
    (r.1 :: rr.1, rr.2)

/- ---------------- representation invariants ---------------- -/

/-- The representation invariant a Python LeasePool object maintains by
construction: both dicts have unique keys, every entry is stored under its
own key, the two indices hold the same leases (the shared objects), the
available deque has no duplicates and is disjoint from the leased
addresses. -/
abbrev LeasePool.WF (s : LeasePool) : Prop :=
  (s.leasesByClient.map Prod.fst).Nodup ∧
  (s.leasesByIp.map Prod.fst).Nodup ∧
  (∀ p ∈ s.leasesByClient, p.2.client_id = p.1) ∧
  (∀ p ∈ s.leasesByIp, p.2.ip = p.1) ∧
  (∀ p ∈ s.leasesByClient, dget s.leasesByIp p.2.ip = some p.2) ∧
  (∀ p ∈ s.leasesByIp, dget s.leasesByClient p.2.client_id = some p.2) ∧
  s.available.Nodup ∧
  (∀ a ∈ s.available, dget s.leasesByIp a = none)

/-- The representation invariant a Python NATTable object maintains: both
dicts have unique keys, every entry is stored under its own key, the two
indices hold the same mappings, and every key of _ext2int lies in the
configured port range. -/
abbrev NATTable.WFn (t : NATTable) : Prop :=
  (t.int2ext.map Prod.fst).Nodup ∧
  (t.ext2int.map Prod.fst).Nodup ∧
  (∀ p ∈ t.int2ext, nkey p.2 = p.1) ∧
  (∀ p ∈ t.ext2int, p.2.external_port = p.1) ∧
  (∀ p ∈ t.int2ext, dget t.ext2int p.2.external_port = some p.2) ∧
  (∀ p ∈ t.ext2int, dget t.int2ext (nkey p.2) = some p.2) ∧
  (∀ p ∈ t.ext2int, t.pmin ≤ p.1 ∧ p.1 ≤ t.pmax)

/- ---------------- reachable states ---------------- -/

/-- States reachable from a given LeasePool state by any sequence of
request / renew / release / expire calls, at arbitrary times. -/
inductive LeaseReach : LeasePool → LeasePool → Prop
  | refl (s : LeasePool) : LeaseReach s s
  | request (s0 s : LeasePool) (c : String) (now : Int) :
      LeaseReach s0 s → LeaseReach s0 (s.request c now).2
  | renew (s0 s : LeasePool) (c : String) (now : Int) :
      LeaseReach s0 s → LeaseReach s0 (s.renew c now).2
  | release (s0 s : LeasePool) (c : String) :
      LeaseReach s0 s → LeaseReach s0 (s.release c)
  | expire (s0 s : LeasePool) (now : Int) :
      LeaseReach s0 s → LeaseReach s0 (s.expire now).2

/-- LeaseReachT s t: s is reachable from a constructed pool by a sequence
of calls whose time arguments are monotonically non-decreasing, the last
passed time being at most t. -/
inductive LeaseReachT : LeasePool → Int → Prop
  | init (netAddr prefixLen : Nat) (dur : Int) (excl : List Nat) (t : Int) :
      LeaseReachT (LeasePool.init netAddr prefixLen dur excl) t
  | request (s : LeasePool) (t : Int) (c : String) (now : Int) :
      LeaseReachT s t → t ≤ now → LeaseReachT (s.request c now).2 now
  | renew (s : LeasePool) (t : Int) (c : String) (now : Int) :
      LeaseReachT s t → t ≤ now → LeaseReachT (s.renew c now).2 now
  | release (s : LeasePool) (t : Int) (c : String) :
      LeaseReachT s t → LeaseReachT (s.release c) t
  | expire (s : LeasePool) (t : Int) (now : Int) :
      LeaseReachT s t → t ≤ now → LeaseReachT (s.expire now).2 now

/-- States reachable from a freshly constructed NATTable by any sequence of
translate_out / translate_in / touch_by_internal / release / expire calls. -/
inductive NATReach : NATTable → Prop
  | init (pub : String) (pmin pmax : Nat) (tmo : Int) :
      NATReach (NATTable.init pub pmin pmax tmo)
  | out (t : NATTable) (proto internal_ip : String) (internal_port : Nat) (now : Int) :
      NATReach t → NATReach (t.translate_out proto internal_ip internal_port now).2
  | inb (t : NATTable) (external_port : Nat) (now : Option Int) :
      NATReach t → NATReach (t.translate_in external_port now).2
  | touch (t : NATTable) (proto internal_ip : String) (internal_port : Nat) (now : Int) :
      NATReach t → NATReach (t.touch_by_internal proto internal_ip internal_port now).2
  | rel (t : NATTable) (proto internal_ip : String) (internal_port : Nat) :
      NATReach t → NATReach (t.release proto internal_ip internal_port).2
  | expire (t : NATTable) (now : Int) :
      NATReach t → NATReach (t.expire now).2

/- ---------------- association-list (Python dict) lemmas ---------------- -/

section DictLemmas

variable {α β γ : Type} [DecidableEq α]

theorem dget_eq_none {d : List (α × β)} {k : α} :
    dget d k = none ↔ k ∉ d.map Prod.fst := by
  induction d with
  | nil => simp [dget]
  | cons p t ih =>
    obtain ⟨a, b⟩ := p
    by_cases h : a = k
    · subst h
      simp [dget]
    · simp only [dget, if_neg h, List.map_cons, List.mem_cons, not_or, ih]
      exact ⟨fun hn => ⟨fun hk => h hk.symm, hn⟩, fun hn => hn.2⟩

theorem dget_mem {d : List (α × β)} {k : α} {v : β} (h : dget d k = some v) :
    (k, v) ∈ d := by
  induction d with
  | nil => simp [dget] at h
  | cons p t ih =>
    obtain ⟨a, b⟩ := p
    by_cases hak : a = k
    · subst hak
      simp [dget] at h
      simp [h]
    · simp [dget, hak] at h
      simp [ih h]

theorem mem_dget {d : List (α × β)} (hnd : (d.map Prod.fst).Nodup) {k : α} {v : β}
    (h : (k, v) ∈ d) : dget d k = some v := by
  induction d with
  | nil => simp at h
  | cons p t ih =>
    obtain ⟨a, b⟩ := p
    rw [List.map_cons, List.nodup_cons] at hnd
    rw [List.mem_cons] at h
    rcases h with h | h
    · rw [Prod.mk.injEq] at h
      simp [dget, h.1.symm, h.2]
    · have hak : a ≠ k := by
        rintro rfl
        exact hnd.1 (List.mem_map.mpr ⟨(a, v), h, rfl⟩)
      simp [dget, hak, ih hnd.2 h]

theorem dset_eq_append {d : List (α × β)} {k : α} (h : dget d k = none) (v : β) :
    dset d k v = d ++ [(k, v)] := by
  induction d with
  | nil => simp [dset]
  | cons p t ih =>
    obtain ⟨a, b⟩ := p
    by_cases hak : a = k
    · simp [dget, hak] at h
    · simp [dget, hak] at h
      simp [dset, hak, ih h]

theorem dget_dset_self {d : List (α × β)} {k : α} {v : β} :
    dget (dset d k v) k = some v := by
  induction d with
  | nil => simp [dset, dget]
  | cons p t ih =>
    obtain ⟨a, b⟩ := p
    by_cases hak : a = k <;> simp [dset, dget, hak, ih]

theorem dget_dset_ne {d : List (α × β)} {k k2 : α} {v : β} (h : k2 ≠ k) :
    dget (dset d k v) k2 = dget d k2 := by
  induction d with
  | nil => simp [dset, dget, Ne.symm h]
  | cons p t ih =>
    obtain ⟨a, b⟩ := p
    by_cases hak : a = k
    · subst hak
      simp [dset, dget, Ne.symm h]
    · by_cases hak2 : a = k2 <;> simp [dset, dget, hak, hak2, ih, h]

theorem map_dset {d : List (α × β)} {k : α} {v w : β} (g : α × β → γ)
    (h : dget d k = some w) (hg : g (k, v) = g (k, w)) :
    (dset d k v).map g = d.map g := by
  induction d with
  | nil => simp [dget] at h
  | cons p t ih =>
    obtain ⟨a, b⟩ := p
    by_cases hak : a = k
    · subst hak
      simp [dget] at h
      subst h
      simp [dset, hg]
    · simp [dget, hak] at h
      simp [dset, hak, ih h]

theorem mem_of_mem_dset {d : List (α × β)} {k k2 : α} {v v2 : β}
    (h : (k2, v2) ∈ dset d k v) : (k2, v2) ∈ d ∨ (k2 = k ∧ v2 = v) := by
  induction d with
  | nil => simp [dset] at h; simp [h]
  | cons p t ih =>
    obtain ⟨a, b⟩ := p
    by_cases hak : a = k
    · subst hak
      simp [dset] at h
      rcases h with ⟨h1, h2⟩ | h
      · right; exact ⟨h1.symm ▸ rfl, h2⟩
      · left; simp [h]
    · simp [dset, hak] at h
      rcases h with h | h
      · left; simp [h]
      · rcases ih h with h2 | h2
        · left; simp [h2]
        · right; exact h2

theorem mem_dset_of_mem {d : List (α × β)} {k k2 : α} {v v2 : β}
    (h2 : (k2, v2) ∈ d) (hne : k2 ≠ k) : (k2, v2) ∈ dset d k v := by
  induction d with
  | nil => simp at h2
  | cons p t ih =>
    obtain ⟨a, b⟩ := p
    by_cases hak : a = k
    · subst hak
      simp [dset]
      simp at h2
      rcases h2 with h2 | h2
      · exact absurd h2.1 hne
      · simp [h2]
    · simp [dset, hak]
      simp at h2
      rcases h2 with h2 | h2
      · simp [h2]
      · simp [ih h2]

theorem dpop_of_none {d : List (α × β)} {k : α} (h : dget d k = none) :
    dpop d k = d := by
  induction d with
  | nil => simp [dpop]
  | cons p t ih =>
    obtain ⟨a, b⟩ := p
    by_cases hak : a = k
    · simp [dget, hak] at h
    · simp [dget, hak] at h
      simp [dpop, hak, ih h]

theorem dget_dpop_ne {d : List (α × β)} {k k2 : α} (h : k2 ≠ k) :
    dget (dpop d k) k2 = dget d k2 := by
  induction d with
  | nil => simp [dpop]
  | cons p t ih =>
    obtain ⟨a, b⟩ := p
    by_cases hak : a = k
    · subst hak
      simp [dpop, dget, Ne.symm h]
    · by_cases hak2 : a = k2 <;> simp [dpop, dget, hak, hak2, ih, h]

theorem dpop_eq_filter {d : List (α × β)} (hnd : (d.map Prod.fst).Nodup) (k : α) :
    dpop d k = d.filter (fun p => !(decide (p.1 = k))) := by
  induction d with
  | nil => simp [dpop]
  | cons p t ih =>
    obtain ⟨a, b⟩ := p
    rw [List.map_cons, List.nodup_cons] at hnd
    by_cases hak : a = k
    · subst hak
      simp [dpop, List.filter_cons]
      refine (List.filter_eq_self.mpr (fun p hp => ?_)).symm
      simp only [Bool.not_eq_true', decide_eq_false_iff_not]
      rintro rfl
      exact hnd.1 (List.mem_map.mpr ⟨p, hp, rfl⟩)
    · simp [dpop, hak, List.filter_cons, ih hnd.2]

theorem nodup_cons_of_keys {d : List (α × β)} {a : α} {b : β}
    (hnd : (((a, b) :: d).map Prod.fst).Nodup) :
    a ∉ d.map Prod.fst ∧ (d.map Prod.fst).Nodup := by
  rw [List.map_cons, List.nodup_cons] at hnd
  exact hnd

theorem dget_dpop_self {d : List (α × β)} (hnd : (d.map Prod.fst).Nodup) (k : α) :
    dget (dpop d k) k = none := by
  induction d with
  | nil => simp [dpop, dget]
  | cons p t ih =>
    obtain ⟨a, b⟩ := p
    rw [List.map_cons, List.nodup_cons] at hnd
    by_cases hak : a = k
    · subst hak
      simp [dpop]
      rw [dget_eq_none]
      intro hmem
      exact hnd.1 hmem
    · simp [dpop, dget, hak, ih hnd.2]

theorem mem_of_mem_dpop {d : List (α × β)} {k : α} {p : α × β}
    (h : p ∈ dpop d k) : p ∈ d := by
  induction d with
  | nil => simp [dpop] at h
  | cons q t ih =>
    obtain ⟨a, b⟩ := q
    by_cases hak : a = k
    · subst hak
      simp [dpop] at h
      simp [h]
    · simp [dpop, hak] at h
      rcases h with h | h
      · simp [h]
      · simp [ih h]

theorem mem_dpop_of_mem {d : List (α × β)} {k : α} {p : α × β}
    (h : p ∈ d) (hne : p.1 ≠ k) : p ∈ dpop d k := by
  induction d with
  | nil => simp at h
  | cons q t ih =>
    obtain ⟨a, b⟩ := q
    by_cases hak : a = k
    · subst hak
      simp [dpop]
      simp at h
      rcases h with h | h
      · exact absurd (h ▸ rfl : p.1 = a) hne
      · exact h
    · simp [dpop, hak]
      simp at h
      rcases h with h | h
      · simp [h]
      · simp [ih h]

theorem nodup_keys_filter {d : List (α × β)} (hnd : (d.map Prod.fst).Nodup)
    (f : α × β → Bool) : ((d.filter f).map Prod.fst).Nodup :=
  ((List.filter_sublist d).map Prod.fst).nodup hnd

theorem nodup_keys_dpop {d : List (α × β)} (hnd : (d.map Prod.fst).Nodup) (k : α) :
    ((dpop d k).map Prod.fst).Nodup := by
  rw [dpop_eq_filter hnd]
  exact nodup_keys_filter hnd _

theorem key_ne_of_mem_dpop {d : List (α × β)} (hnd : (d.map Prod.fst).Nodup)
    {k : α} {p : α × β} (hp : p ∈ dpop d k) : p.1 ≠ k := by
  obtain ⟨pk, pv⟩ := p
  intro he
  simp only at he
  subst he
  have h1 : dget (dpop d pk) pk = some pv := mem_dget (nodup_keys_dpop hnd pk) hp
  rw [dget_dpop_self hnd] at h1
  exact Option.noConfusion h1

theorem value_eq_of_mem_dget {d : List (α × β)} (hnd : (d.map Prod.fst).Nodup)
    {p : α × β} (hp : p ∈ d) {v : β} (hg : dget d p.1 = some v) : p.2 = v := by
  have h1 : dget d p.1 = some p.2 := mem_dget hnd hp
  rw [h1] at hg
  exact (Option.some.injEq _ _).mp hg

theorem nodup_keys_dset {d : List (α × β)} (hnd : (d.map Prod.fst).Nodup)
    (k : α) (v : β) : ((dset d k v).map Prod.fst).Nodup := by
  cases h : dget d k with
  | some w => rw [@map_dset _ _ _ _ d k v w Prod.fst h rfl]; exact hnd
  | none =>
    rw [dset_eq_append h]
    rw [dget_eq_none] at h
    simp only [List.map_append, List.map_cons, List.map_nil, List.nodup_append]
    refine ⟨hnd, List.nodup_singleton k, fun x hx => ?_⟩
    simp only [List.mem_singleton]
    rintro rfl
    exact h hx

theorem length_dset_none {d : List (α × β)} {k : α} (h : dget d k = none) (v : β) :
    (dset d k v).length = d.length + 1 := by
  rw [dset_eq_append h]
  simp

theorem dget_append_left {d d2 : List (α × β)} {k : α} {v : β}
    (h : dget d k = some v) : dget (d ++ d2) k = some v := by
  induction d with
  | nil => simp [dget] at h
  | cons p t ih =>
    obtain ⟨a, b⟩ := p
    by_cases hak : a = k
    · simp [dget, hak] at h
      simp [dget, hak, h]
    · simp [dget, hak] at h
      simp [dget, hak, ih h]

theorem dget_append_right {d d2 : List (α × β)} {k : α}
    (h : dget d k = none) : dget (d ++ d2) k = dget d2 k := by
  induction d with
  | nil => simp
  | cons p t ih =>
    obtain ⟨a, b⟩ := p
    by_cases hak : a = k
    · simp [dget, hak] at h
    · simp [dget, hak] at h
      simp [dget, hak, ih h]

theorem filter_key_eq {d : List (α × β)} (hnd : (d.map Prod.fst).Nodup)
    {k : α} {v : β} (h : dget d k = some v) :
    d.filter (fun p => decide (p.1 = k)) = [(k, v)] := by
  induction d with
  | nil => simp [dget] at h
  | cons p t ih =>
    obtain ⟨a, b⟩ := p
    rw [List.map_cons, List.nodup_cons] at hnd
    by_cases hak : a = k
    · subst hak
      simp [dget] at h
      subst h
      simp only [List.filter_cons, decide_True, if_true]
      have : t.filter (fun p => decide (p.1 = a)) = [] := by
        rw [List.filter_eq_nil]
        intro p hp
        simp only [decide_eq_true_eq]
        intro he
        exact hnd.1 (he ▸ List.mem_map.mpr ⟨p, hp, rfl⟩)
      rw [this]
    · simp [dget, hak] at h
      simp [List.filter_cons, hak, ih hnd.2 h]

theorem filter_key_none {d : List (α × β)} {k : α} (h : dget d k = none) :
    d.filter (fun p => decide (p.1 = k)) = [] := by
  rw [List.filter_eq_nil]
  intro p hp
  simp only [decide_eq_true_eq]
  intro he
  rw [dget_eq_none] at h
  exact h (he ▸ List.mem_map.mpr ⟨p, hp, rfl⟩)

theorem dget_filter_of_none {d : List (α × β)} {k : α} (f : α × β → Bool)
    (h : dget d k = none) : dget (d.filter f) k = none := by
  rw [dget_eq_none] at h ⊢
  intro hmem
  obtain ⟨p, hp, hpk⟩ := List.mem_map.mp hmem
  exact h (List.mem_map.mpr ⟨p, (List.mem_filter.mp hp).1, hpk⟩)

theorem dget_filter_of_some {d : List (α × β)} (hnd : (d.map Prod.fst).Nodup)
    {k : α} {v : β} (f : α × β → Bool) (h : dget d k = some v) :
    dget (d.filter f) k = if f (k, v) then some v else none := by
  induction d with
  | nil => simp [dget] at h
  | cons p t ih =>
    obtain ⟨a, b⟩ := p
    rw [List.map_cons, List.nodup_cons] at hnd
    by_cases hak : a = k
    · subst hak
      simp [dget] at h
      subst h
      have hnone : dget t a = none := by
        rw [dget_eq_none]
        intro hmem
        exact hnd.1 hmem
      by_cases hf : f (a, b) = true
      · simp [List.filter_cons, hf, dget]
      · simp at hf
        simp [List.filter_cons, hf, dget_filter_of_none f hnone]
    · simp [dget, hak] at h
      by_cases hf : f (a, b) = true
      · simp [List.filter_cons, hf, dget, hak, ih hnd.2 h]
      · simp at hf
        simp [List.filter_cons, hf, ih hnd.2 h]

end DictLemmas

/- ---------------- LeasePool: invariant preservation ---------------- -/

/-- Removing one lease from both indices while returning its address to
the deque preserves the representation invariant. -/
theorem WF_expireStep {st : LeasePool} (h : st.WF) (c : String) :
    (expireStep st c).WF := by
  obtain ⟨ndc, ndi, kc, ki, sy1, sy2, nda, dis⟩ := h
  unfold expireStep
  cases hg : dget st.leasesByClient c with
  | none => exact ⟨ndc, ndi, kc, ki, sy1, sy2, nda, dis⟩
  | some L =>
    have hmemC : (c, L) ∈ st.leasesByClient := dget_mem hg
    have hLc : L.client_id = c := kc _ hmemC
    have hgI : dget st.leasesByIp L.ip = some L := sy1 _ hmemC
    have hipav : ∀ a ∈ st.available, a ≠ L.ip := by
      intro a ha he
      have := dis a ha
      rw [he, hgI] at this
      exact Option.noConfusion this
    refine ⟨nodup_keys_dpop ndc c, nodup_keys_dpop ndi L.ip, ?_, ?_, ?_, ?_, ?_, ?_⟩
    · intro p hp; exact kc p (mem_of_mem_dpop hp)
    · intro p hp; exact ki p (mem_of_mem_dpop hp)
    · intro p hp
      have hpk : p.1 ≠ c := key_ne_of_mem_dpop ndc hp
      have hpC : p ∈ st.leasesByClient := mem_of_mem_dpop hp
      have hne : p.2.ip ≠ L.ip := by
        intro he
        have h1 := sy1 p hpC
        rw [he, hgI] at h1
        have h2 : L = p.2 := (Option.some.injEq _ _).mp h1
        apply hpk
        rw [← kc p hpC, ← h2, hLc]
      rw [dget_dpop_ne hne]
      exact sy1 p hpC
    · intro p hp
      have hpk : p.1 ≠ L.ip := key_ne_of_mem_dpop ndi hp
      have hpI : p ∈ st.leasesByIp := mem_of_mem_dpop hp
      have hne : p.2.client_id ≠ c := by
        intro he
        have h1 := sy2 p hpI
        rw [he, hg] at h1
        have h2 : L = p.2 := (Option.some.injEq _ _).mp h1
        apply hpk
        rw [← ki p hpI, ← h2]
      rw [dget_dpop_ne hne]
      exact sy2 p hpI
    · rw [List.nodup_append]
      exact ⟨nda, List.nodup_singleton _, fun a ha => by
        simp only [List.mem_singleton]
        exact hipav a ha⟩
    · intro a ha
      rw [List.mem_append, List.mem_singleton] at ha
      rcases ha with ha | ha
      · rw [dget_dpop_ne (hipav a ha)]
        exact dis a ha
      · rw [ha]
        exact dget_dpop_self ndi L.ip

/-- LeasePool.release has the same body as one reclaim iteration. -/
theorem release_eq_expireStep (s : LeasePool) (c : String) :
    s.release c = expireStep s c := by
  unfold LeasePool.release expireStep
  rfl

/-- Folding the reclaim loop of LeasePool.expire over the keys of the
entries selected by a value predicate f removes exactly those entries from
both indices and appends their addresses, in index order, to the tail of
the available deque; well-formedness is preserved. -/
theorem foldPop_spec (f : Lease → Bool) :
    ∀ (n : Nat) (st : LeasePool),
      (st.leasesByClient.filter (fun p => f p.2)).length = n → st.WF →
      ((((st.leasesByClient.filter (fun p => f p.2)).map Prod.fst).foldl expireStep st).leasesByClient
          = st.leasesByClient.filter (fun p => !(f p.2))) ∧
      ((((st.leasesByClient.filter (fun p => f p.2)).map Prod.fst).foldl expireStep st).leasesByIp
          = st.leasesByIp.filter (fun p => !(f p.2))) ∧
      ((((st.leasesByClient.filter (fun p => f p.2)).map Prod.fst).foldl expireStep st).available
          = st.available ++ (st.leasesByClient.filter (fun p => f p.2)).map (fun p => p.2.ip)) ∧
      ((((st.leasesByClient.filter (fun p => f p.2)).map Prod.fst).foldl expireStep st).lease_seconds
          = st.lease_seconds) ∧
      (((st.leasesByClient.filter (fun p => f p.2)).map Prod.fst).foldl expireStep st).WF := by
  intro n
  induction n with
  | zero =>
    intro st hlen hwf
    rw [List.length_eq_zero] at hlen
    have hall : ∀ p ∈ st.leasesByClient, f p.2 = false := by
      intro p hp
      by_contra hcon
      rw [Bool.not_eq_false] at hcon
      have hmem : p ∈ st.leasesByClient.filter (fun p => f p.2) :=
        List.mem_filter.mpr ⟨hp, hcon⟩
      rw [hlen] at hmem
      exact absurd hmem (List.not_mem_nil p)
    have hallI : ∀ p ∈ st.leasesByIp, f p.2 = false := by
      intro p hp
      exact hall _ (dget_mem (hwf.2.2.2.2.2.1 p hp))
    rw [hlen]
    simp only [List.map_nil, List.foldl_nil]
    refine And.intro ?_ (And.intro ?_ (And.intro ?_ (And.intro ?_ hwf)))
    · exact (List.filter_eq_self.mpr (fun p hp => by simp [hall p hp])).symm
    · exact (List.filter_eq_self.mpr (fun p hp => by simp [hallI p hp])).symm
    · simp
    · trivial
  | succ n ih =>
    intro st hlen hwf
    have hwfc := hwf
    obtain ⟨ndc, ndi, kc, ki, sy1, sy2, nda, dis⟩ := hwf
    cases hsplit : st.leasesByClient.filter (fun p => f p.2) with
    | nil => rw [hsplit] at hlen; simp at hlen
    | cons q rest =>
      obtain ⟨c, L⟩ := q
      have hmemF : (c, L) ∈ st.leasesByClient.filter (fun p => f p.2) := by
        rw [hsplit]; exact List.mem_cons_self _ _
      have hmemC : (c, L) ∈ st.leasesByClient := (List.mem_filter.mp hmemF).1
      have hfL : f L = true := by simpa using (List.mem_filter.mp hmemF).2
      have hgC : dget st.leasesByClient c = some L := mem_dget ndc hmemC
      have hLc : L.client_id = c := kc _ hmemC
      have hgI : dget st.leasesByIp L.ip = some L := sy1 _ hmemC
      have hstep : expireStep st c = { st with
          leasesByClient := dpop st.leasesByClient c
          leasesByIp := dpop st.leasesByIp L.ip
          available := st.available ++ [L.ip] } := by
        unfold expireStep; rw [hgC]
      have hwf1 : (LeasePool.mk st.lease_seconds (st.available ++ [L.ip])
          (dpop st.leasesByClient c) (dpop st.leasesByIp L.ip)).WF := by
        have h0 := WF_expireStep hwfc c
        rw [hstep] at h0
        exact h0
      have hndF : ((st.leasesByClient.filter (fun p => f p.2)).map Prod.fst).Nodup :=
        nodup_keys_filter ndc _
      rw [hsplit, List.map_cons, List.nodup_cons] at hndF
      have hcrest : ∀ p ∈ rest, ¬(p.1 = c) := by
        intro p hp he
        exact hndF.1 (he ▸ List.mem_map.mpr ⟨p, hp, rfl⟩)
      have hfilter1 : (dpop st.leasesByClient c).filter (fun p => f p.2) = rest := by
        rw [dpop_eq_filter ndc, List.filter_filter]
        have hcomm : st.leasesByClient.filter (fun p => f p.2 && !(decide (p.1 = c)))
            = st.leasesByClient.filter (fun p => !(decide (p.1 = c)) && f p.2) :=
          List.filter_congr (fun p _ => Bool.and_comm _ _)
        rw [hcomm, ← List.filter_filter, hsplit, List.filter_cons]
        simp only [decide_True, Bool.not_true, Bool.false_eq_true, if_false]
        exact List.filter_eq_self.mpr (fun p hp => by simp [hcrest p hp])
      have hlen1 : ((dpop st.leasesByClient c).filter (fun p => f p.2)).length = n := by
        rw [hfilter1]
        rw [hsplit] at hlen
        simpa using hlen
      have IH := ih (LeasePool.mk st.lease_seconds (st.available ++ [L.ip])
          (dpop st.leasesByClient c) (dpop st.leasesByIp L.ip)) hlen1 hwf1
      dsimp only at IH
      rw [hfilter1] at IH
      have hbc : (dpop st.leasesByClient c).filter (fun p => !(f p.2))
          = st.leasesByClient.filter (fun p => !(f p.2)) := by
        rw [dpop_eq_filter ndc, List.filter_filter]
        refine List.filter_congr (fun p hp => ?_)
        by_cases hpc : p.1 = c
        · have hpL : p.2 = L := by
            refine value_eq_of_mem_dget ndc hp ?_
            rw [hpc]; exact hgC
          simp [hpc, hpL, hfL]
        · simp [hpc]
      have hbi : (dpop st.leasesByIp L.ip).filter (fun p => !(f p.2))
          = st.leasesByIp.filter (fun p => !(f p.2)) := by
        rw [dpop_eq_filter ndi, List.filter_filter]
        refine List.filter_congr (fun p hp => ?_)
        by_cases hpi : p.1 = L.ip
        · have hpL : p.2 = L := by
            refine value_eq_of_mem_dget ndi hp ?_
            rw [hpi]; exact hgI
          simp [hpi, hpL, hfL]
        · simp [hpi]
      simp only [List.map_cons, List.foldl_cons]
      rw [hstep]
      refine And.intro ?_ (And.intro ?_ (And.intro ?_ (And.intro ?_ IH.2.2.2.2)))
      · rw [IH.1, hbc]
      · rw [IH.2.1, hbi]
      · rw [IH.2.2.1]
        simp [List.append_assoc]
      · exact IH.2.2.2.1


/-- Characterization of LeasePool.expire on a well-formed pool: the
reclaimed leases are exactly those with expiry <= now; they leave both
indices and their addresses join the tail of the available deque in index
order. -/
theorem expire_spec {s : LeasePool} (h : s.WF) (now : Int) :
    (s.expire now).2.leasesByClient
        = s.leasesByClient.filter (fun p => !(decide (p.2.expiry ≤ now))) ∧
    (s.expire now).2.leasesByIp
        = s.leasesByIp.filter (fun p => !(decide (p.2.expiry ≤ now))) ∧
    (s.expire now).2.available
        = s.available ++ (s.leasesByClient.filter (fun p => decide (p.2.expiry ≤ now))).map (fun p => p.2.ip) ∧
    (s.expire now).2.lease_seconds = s.lease_seconds ∧
    (s.expire now).2.WF :=
  foldPop_spec (fun L => decide (L.expiry ≤ now)) _ s rfl h

/-- The count LeasePool.expire returns is the number of leases satisfying
the reclaim condition. -/
theorem expire_fst (s : LeasePool) (now : Int) :
    (s.expire now).1 = (s.leasesByClient.filter (fun p => decide (p.2.expiry ≤ now))).length := by
  unfold LeasePool.expire
  simp

/-- After an expiry sweep, every tracked lease is strictly live. -/
theorem expire_live {s : LeasePool} (h : s.WF) (now : Int) :
    ∀ p ∈ (s.expire now).2.leasesByClient, now < p.2.expiry := by
  intro p hp
  rw [(expire_spec h now).1] at hp
  have := (List.mem_filter.mp hp).2
  simp at this
  omega

/-- A lease that is still live survives the expiry sweep untouched. -/
theorem dget_expire_live {s : LeasePool} (h : s.WF) {c : String} {L : Lease}
    (hg : dget s.leasesByClient c = some L) (now : Int) (hlive : now < L.expiry) :
    dget (s.expire now).2.leasesByClient c = some L := by
  rw [(expire_spec h now).1]
  rw [dget_filter_of_some h.1 _ hg]
  simp
  omega

/-- A client without a lease still has none after the expiry sweep. -/
theorem dget_expire_none {s : LeasePool} (h : s.WF) {c : String}
    (hg : dget s.leasesByClient c = none) (now : Int) :
    dget (s.expire now).2.leasesByClient c = none := by
  rw [(expire_spec h now).1]
  exact dget_filter_of_none _ hg

/-- An expiry sweep that reclaims nothing leaves the state untouched. -/
theorem expire_noop {s : LeasePool} {now0 : Int}
    (h : s.leasesByClient.filter (fun p => decide (p.2.expiry ≤ now0)) = []) :
    (s.expire now0).2 = s := by
  unfold LeasePool.expire
  rw [h]
  rfl

/-- The host enumeration of a block never repeats an address. -/
theorem hostsOf_nodup (netAddr prefixLen : Nat) : (hostsOf netAddr prefixLen).Nodup := by
  unfold hostsOf
  by_cases h : 31 ≤ prefixLen
  · simp only [h, if_true]
    refine List.Nodup.map ?_ (List.nodup_range _)
    intro x y hxy
    dsimp only at hxy
    omega
  · simp only [h, if_false]
    refine List.Nodup.map ?_ (List.nodup_range _)
    intro x y hxy
    dsimp only at hxy
    omega

/-- A freshly constructed pool is well-formed. -/
theorem WF_init (netAddr prefixLen : Nat) (dur : Int) (excl : List Nat) :
    (LeasePool.init netAddr prefixLen dur excl).WF := by
  refine ⟨List.nodup_nil, List.nodup_nil, ?_, ?_, ?_, ?_, ?_, ?_⟩
  · intro p hp; simp [LeasePool.init] at hp
  · intro p hp; simp [LeasePool.init] at hp
  · intro p hp; simp [LeasePool.init] at hp
  · intro p hp; simp [LeasePool.init] at hp
  · exact List.Nodup.filter _ (hostsOf_nodup netAddr prefixLen)
  · intro a _
    rfl

/- ---------------- LeasePool: allocation path ---------------- -/

theorem allocNew_nil {s : LeasePool} (hav : s.available = []) (c : String) (now : Int) :
    s.allocNew c now = (Except.error (), s) := by
  unfold LeasePool.allocNew
  rw [hav]

/-- With a free address at the head of the deque and no stale state, the
allocation tail pops the head and appends the fresh lease to both indices. -/
theorem allocNew_cons {s : LeasePool} {a : Nat} {rest : List Nat} (c : String) (now : Int)
    (hav : s.available = a :: rest) (hwf : s.WF)
    (hc : dget s.leasesByClient c = none) :
    s.allocNew c now =
      (Except.ok a, LeasePool.mk s.lease_seconds rest
        (s.leasesByClient ++ [(c, Lease.mk c a (now + s.lease_seconds))])
        (s.leasesByIp ++ [(a, Lease.mk c a (now + s.lease_seconds))])) := by
  obtain ⟨ndc, ndi, kc, ki, sy1, sy2, nda, dis⟩ := hwf
  have hIa : dget s.leasesByIp a = none := dis a (by rw [hav]; exact List.mem_cons_self _ _)
  unfold LeasePool.allocNew
  rw [hav]
  unfold LeasePool.commit_lease
  dsimp only
  rw [hIa]
  dsimp only
  rw [dset_eq_append hc, dset_eq_append hIa]

/-- Allocating a fresh lease preserves the representation invariant. -/
theorem WF_allocNew {s : LeasePool} {a : Nat} {rest : List Nat} (c : String) (now : Int)
    (hav : s.available = a :: rest) (hwf : s.WF)
    (hc : dget s.leasesByClient c = none) :
    ((s.allocNew c now).2).WF := by
  have hwfc := hwf
  obtain ⟨ndc, ndi, kc, ki, sy1, sy2, nda, dis⟩ := hwf
  have hIa : dget s.leasesByIp a = none := dis a (by rw [hav]; exact List.mem_cons_self _ _)
  have hanotin : a ∉ rest := by
    have h0 := nda
    rw [hav, List.nodup_cons] at h0
    exact h0.1
  rw [allocNew_cons c now hav hwfc hc]
  dsimp only
  refine ⟨?_, ?_, ?_, ?_, ?_, ?_, ?_, ?_⟩
  · rw [List.map_append]
    simp only [List.map_cons, List.map_nil]
    rw [List.nodup_append]
    refine ⟨ndc, List.nodup_singleton _, fun x hx => ?_⟩
    simp only [List.mem_singleton]
    rintro rfl
    rw [dget_eq_none] at hc
    exact hc hx
  · rw [List.map_append]
    simp only [List.map_cons, List.map_nil]
    rw [List.nodup_append]
    refine ⟨ndi, List.nodup_singleton _, fun x hx => ?_⟩
    simp only [List.mem_singleton]
    rintro rfl
    rw [dget_eq_none] at hIa
    exact hIa hx
  · intro p hp
    rw [List.mem_append] at hp
    rcases hp with hp | hp
    · exact kc p hp
    · rw [List.mem_singleton] at hp
      subst hp
      rfl
  · intro p hp
    rw [List.mem_append] at hp
    rcases hp with hp | hp
    · exact ki p hp
    · rw [List.mem_singleton] at hp
      subst hp
      rfl
  · intro p hp
    rw [List.mem_append] at hp
    rcases hp with hp | hp
    · exact dget_append_left (sy1 p hp)
    · rw [List.mem_singleton] at hp
      subst hp
      dsimp only
      rw [dget_append_right hIa]
      simp [dget]
  · intro p hp
    rw [List.mem_append] at hp
    rcases hp with hp | hp
    · exact dget_append_left (sy2 p hp)
    · rw [List.mem_singleton] at hp
      subst hp
      dsimp only
      rw [dget_append_right hc]
      simp [dget]
  · have h0 := nda
    rw [hav, List.nodup_cons] at h0
    exact h0.2
  · intro b hb
    have hbav : b ∈ s.available := by rw [hav]; exact List.mem_cons_of_mem _ hb
    have hba : ¬(a = b) := by
      rintro rfl
      exact hanotin hb
    rw [dget_append_right (dis b hbav)]
    simp [dget, hba]

/-- Allocation moves the head of the deque into the leased set: the
combined multiset of addresses is unchanged. -/
theorem perm_allocNew {s : LeasePool} {a : Nat} {rest : List Nat} (c : String) (now : Int)
    (hav : s.available = a :: rest) (hwf : s.WF)
    (hc : dget s.leasesByClient c = none) :
    ((s.allocNew c now).2.available ++ leasedIps (s.allocNew c now).2).Perm
      (s.available ++ leasedIps s) := by
  rw [allocNew_cons c now hav hwf hc, hav]
  dsimp only [leasedIps]
  rw [List.map_append]
  simp only [List.map_cons, List.map_nil]
  refine List.Perm.trans (List.Perm.append_left rest List.perm_append_comm) ?_
  exact List.perm_middle

/-- The expiry sweep moves reclaimed addresses from the leased set back to
the deque: the combined multiset of addresses is unchanged. -/
theorem perm_expire {s : LeasePool} (hwf : s.WF) (now : Int) :
    ((s.expire now).2.available ++ leasedIps (s.expire now).2).Perm
      (s.available ++ leasedIps s) := by
  obtain ⟨h1, h2, h3, h4, h5⟩ := expire_spec hwf now
  rw [leasedIps, h1, h3, leasedIps]
  have hsplit : ((s.leasesByClient.filter (fun q => decide (q.2.expiry ≤ now)))
      ++ (s.leasesByClient.filter (fun q => !(decide (q.2.expiry ≤ now))))).Perm
      s.leasesByClient := List.filter_append_perm _ _
  have hmap := hsplit.map (fun p => p.2.ip)
  rw [List.map_append] at hmap
  rw [List.append_assoc]
  exact List.Perm.append_left _ hmap

/-- request preserves the invariant and the combined address multiset. -/
theorem request_WF_perm {s : LeasePool} (hwf : s.WF) (c : String) (now : Int) :
    ((s.request c now).2).WF ∧
    ((s.request c now).2.available ++ leasedIps (s.request c now).2).Perm
      (s.available ++ leasedIps s) := by
  have hwf1 : (s.expire now).2.WF := (expire_spec hwf now).2.2.2.2
  have hperm1 := perm_expire hwf now
  unfold LeasePool.request
  cases hg : dget (s.expire now).2.leasesByClient c with
  | some lease =>
    have hlive : now < lease.expiry := expire_live hwf now _ (dget_mem hg)
    dsimp only
    rw [if_pos hlive]
    exact ⟨hwf1, hperm1⟩
  | none =>
    dsimp only
    cases hav : (s.expire now).2.available with
    | nil =>
      rw [allocNew_nil hav]
      exact ⟨hwf1, hperm1⟩
    | cons a rest =>
      exact ⟨WF_allocNew c now hav hwf1 hg,
        (perm_allocNew c now hav hwf1 hg).trans hperm1⟩

/-- Refreshing the shared Lease object stored under both indices with a
record that keeps both keys preserves the representation invariant. -/
theorem WF_update_both {s : LeasePool} (hwf : s.WF) {c : String} {lease lease2 : Lease}
    (hg : dget s.leasesByClient c = some lease)
    (hcid : lease2.client_id = lease.client_id) (hip : lease2.ip = lease.ip) :
    (LeasePool.mk s.lease_seconds s.available
      (dset s.leasesByClient c lease2) (dset s.leasesByIp lease.ip lease2)).WF := by
  obtain ⟨ndc, ndi, kc, ki, sy1, sy2, nda, dis⟩ := hwf
  have hmemC : (c, lease) ∈ s.leasesByClient := dget_mem hg
  have hLc : lease.client_id = c := kc _ hmemC
  have hgI : dget s.leasesByIp lease.ip = some lease := sy1 _ hmemC
  refine ⟨nodup_keys_dset ndc _ _, nodup_keys_dset ndi _ _, ?_, ?_, ?_, ?_, nda, ?_⟩
  · intro p hp
    by_cases hpc : p.1 = c
    · have hpv : p.2 = lease2 := by
        have h4 := mem_dget (nodup_keys_dset ndc c lease2) hp
        rw [hpc, dget_dset_self] at h4
        exact ((Option.some.injEq _ _).mp h4).symm
      rw [hpv, hpc, hcid, hLc]
    · have hpOld : p ∈ s.leasesByClient := by
        rcases mem_of_mem_dset hp with h | h
        · exact h
        · exact absurd h.1 hpc
      exact kc p hpOld
  · intro p hp
    by_cases hpi : p.1 = lease.ip
    · have hpv : p.2 = lease2 := by
        have h4 := mem_dget (nodup_keys_dset ndi _ _) hp
        rw [hpi, dget_dset_self] at h4
        exact ((Option.some.injEq _ _).mp h4).symm
      rw [hpv, hpi, hip]
    · have hpOld : p ∈ s.leasesByIp := by
        rcases mem_of_mem_dset hp with h | h
        · exact h
        · exact absurd h.1 hpi
      exact ki p hpOld
  · intro p hp
    by_cases hpc : p.1 = c
    · have hpv : p.2 = lease2 := by
        have h4 := mem_dget (nodup_keys_dset ndc _ _) hp
        rw [hpc, dget_dset_self] at h4
        exact ((Option.some.injEq _ _).mp h4).symm
      rw [hpv]
      have hi2 : lease2.ip = lease.ip := hip
      rw [hi2, dget_dset_self]
    · have hpOld : p ∈ s.leasesByClient := by
        rcases mem_of_mem_dset hp with h | h
        · exact h
        · exact absurd h.1 hpc
      have hne : p.2.ip ≠ lease.ip := by
        intro he
        have h1 := sy1 p hpOld
        rw [he, hgI] at h1
        have h2 : lease = p.2 := (Option.some.injEq _ _).mp h1
        apply hpc
        rw [← kc p hpOld, ← h2, hLc]
      rw [dget_dset_ne hne]
      exact sy1 p hpOld
  · intro p hp
    by_cases hpi : p.1 = lease.ip
    · have hpv : p.2 = lease2 := by
        have h4 := mem_dget (nodup_keys_dset ndi _ _) hp
        rw [hpi, dget_dset_self] at h4
        exact ((Option.some.injEq _ _).mp h4).symm
      rw [hpv, hcid, hLc, dget_dset_self]
    · have hpOld : p ∈ s.leasesByIp := by
        rcases mem_of_mem_dset hp with h | h
        · exact h
        · exact absurd h.1 hpi
      have hne : p.2.client_id ≠ c := by
        intro he
        have h1 := sy2 p hpOld
        rw [he, hg] at h1
        have h2 : lease = p.2 := (Option.some.injEq _ _).mp h1
        apply hpi
        rw [← ki p hpOld, ← h2]
      rw [dget_dset_ne hne]
      exact sy2 p hpOld
  · intro a ha
    have hne : a ≠ lease.ip := by
      intro he
      have h1 := dis a ha
      rw [he, hgI] at h1
      exact Option.noConfusion h1
    rw [dget_dset_ne hne]
    exact dis a ha

/-- renew preserves the invariant and the combined address multiset. -/
theorem renew_WF_perm {s : LeasePool} (hwf : s.WF) (c : String) (now : Int) :
    ((s.renew c now).2).WF ∧
    ((s.renew c now).2.available ++ leasedIps (s.renew c now).2).Perm
      (s.available ++ leasedIps s) := by
  have hwf1 : (s.expire now).2.WF := (expire_spec hwf now).2.2.2.2
  have hperm1 := perm_expire hwf now
  unfold LeasePool.renew
  cases hg : dget (s.expire now).2.leasesByClient c with
  | some lease =>
    have hlive : now < lease.expiry := expire_live hwf now _ (dget_mem hg)
    dsimp only
    rw [if_pos hlive]
    constructor
    · exact WF_update_both hwf1 hg rfl rfl
    · dsimp only [leasedIps]
      have hmap : (dset (s.expire now).2.leasesByClient c
          { lease with expiry := now + (s.expire now).2.lease_seconds }).map (fun p => p.2.ip)
          = (s.expire now).2.leasesByClient.map (fun p => p.2.ip) :=
        map_dset _ hg rfl
      rw [hmap]
      exact hperm1
  | none =>
    dsimp only
    obtain ⟨hw, hp⟩ := request_WF_perm hwf1 c now
    exact ⟨hw, hp.trans hperm1⟩

/-- release preserves the invariant and the combined address multiset. -/
theorem release_WF_perm {s : LeasePool} (hwf : s.WF) (c : String) :
    ((s.release c).WF) ∧
    ((s.release c).available ++ leasedIps (s.release c)).Perm
      (s.available ++ leasedIps s) := by
  constructor
  · rw [release_eq_expireStep]
    exact WF_expireStep hwf c
  · obtain ⟨ndc, ndi, kc, ki, sy1, sy2, nda, dis⟩ := hwf
    unfold LeasePool.release
    cases hg : dget s.leasesByClient c with
    | none =>
      dsimp only
      exact List.Perm.refl _
    | some L =>
      dsimp only [leasedIps]
      have hsplitP : (s.leasesByClient.filter (fun q => decide (q.1 = c))
          ++ s.leasesByClient.filter (fun q => !(decide (q.1 = c)))).Perm s.leasesByClient :=
        List.filter_append_perm _ _
      rw [filter_key_eq ndc hg] at hsplitP
      have hmap := hsplitP.map (fun p => p.2.ip)
      simp only [List.map_append, List.map_cons, List.map_nil] at hmap
      rw [dpop_eq_filter ndc, List.append_assoc]
      exact List.Perm.append_left _ hmap

/-- Every state reachable from a well-formed pool is well-formed and holds
the same combined multiset of addresses (no address lost or duplicated). -/
theorem leaseReach_WF_perm {s0 s : LeasePool} (hr : LeaseReach s0 s) (hwf0 : s0.WF) :
    s.WF ∧ (s.available ++ leasedIps s).Perm (s0.available ++ leasedIps s0) := by
  induction hr with
  | refl => exact ⟨hwf0, List.Perm.refl _⟩
  | request s c now hr ih =>
    obtain ⟨hw, hp⟩ := ih
    obtain ⟨hw2, hp2⟩ := request_WF_perm hw c now
    exact ⟨hw2, hp2.trans hp⟩
  | renew s c now hr ih =>
    obtain ⟨hw, hp⟩ := ih
    obtain ⟨hw2, hp2⟩ := renew_WF_perm hw c now
    exact ⟨hw2, hp2.trans hp⟩
  | release s c hr ih =>
    obtain ⟨hw, hp⟩ := ih
    obtain ⟨hw2, hp2⟩ := release_WF_perm hw c
    exact ⟨hw2, hp2.trans hp⟩
  | expire s now hr ih =>
    obtain ⟨hw, hp⟩ := ih
    exact ⟨(expire_spec hw now).2.2.2.2, (perm_expire hw now).trans hp⟩

/- ---------------- LeasePool: request path characterizations ---------------- -/

/-- In the live-lease branch, request returns the stored address and the
post-sweep state unchanged. -/
theorem request_hit {s : LeasePool} {c : String} {now : Int} {lease : Lease}
    (hg : dget (s.expire now).2.leasesByClient c = some lease)
    (hlive : now < lease.expiry) :
    s.request c now = (Except.ok lease.ip, (s.expire now).2) := by
  unfold LeasePool.request
  rw [hg]
  dsimp only
  rw [if_pos hlive]

/-- A lease held by the requesting client after a successful request has
exactly the returned address. -/
theorem request_ok_ip {s : LeasePool} (hwf : s.WF) {c : String} {now : Int} {a : Nat} {L : Lease}
    (h1 : (s.request c now).1 = Except.ok a)
    (h2 : dget (s.request c now).2.leasesByClient c = some L) :
    L.ip = a := by
  have hwf1 : (s.expire now).2.WF := (expire_spec hwf now).2.2.2.2
  unfold LeasePool.request at h1 h2
  cases hg : dget (s.expire now).2.leasesByClient c with
  | some lease =>
    have hlive : now < lease.expiry := expire_live hwf now _ (dget_mem hg)
    rw [hg] at h1 h2
    dsimp only at h1 h2
    rw [if_pos hlive] at h1 h2
    dsimp only at h1 h2
    rw [hg] at h2
    have hLl : lease = L := (Option.some.injEq _ _).mp h2
    have hia : lease.ip = a := Except.ok.inj h1
    rw [← hLl]
    exact hia
  | none =>
    rw [hg] at h1 h2
    dsimp only at h1 h2
    cases hav : (s.expire now).2.available with
    | nil =>
      rw [allocNew_nil hav] at h1
      exact absurd h1 (by simp)
    | cons a0 rest =>
      rw [allocNew_cons c now hav hwf1 hg] at h1 h2
      dsimp only at h1 h2
      rw [dget_append_right hg] at h2
      have hsing : dget [(c, Lease.mk c a0 (now + (s.expire now).2.lease_seconds))] c
          = some (Lease.mk c a0 (now + (s.expire now).2.lease_seconds)) := by
        simp [dget]
      rw [hsing] at h2
      have hL : Lease.mk c a0 (now + (s.expire now).2.lease_seconds) = L :=
        (Option.some.injEq _ _).mp h2
      have hia : a0 = a := Except.ok.inj h1
      rw [← hL]
      dsimp only
      exact hia

/-- When request raises ResourceExhausted, the pool state is untouched. -/
theorem request_error_state {s : LeasePool} (hwf : s.WF) {c : String} {now : Int}
    (h1 : (s.request c now).1 = Except.error ()) : (s.request c now).2 = s := by
  have hsp := expire_spec hwf now
  unfold LeasePool.request at h1 ⊢
  cases hg : dget (s.expire now).2.leasesByClient c with
  | some lease =>
    have hlive : now < lease.expiry := expire_live hwf now _ (dget_mem hg)
    rw [hg] at h1
    dsimp only at h1
    rw [if_pos hlive] at h1
    exact Except.noConfusion h1
  | none =>
    rw [hg] at h1
    dsimp only at h1 ⊢
    cases hav : (s.expire now).2.available with
    | nil =>
      rw [allocNew_nil hav]
      dsimp only
      have hnil : s.available = [] ∧
          ((s.leasesByClient.filter (fun p => decide (p.2.expiry ≤ now))).map (fun p => p.2.ip)) = [] := by
        have h3 := hsp.2.2.1
        rw [hav] at h3
        exact List.append_eq_nil.mp h3.symm
      have hfe : s.leasesByClient.filter (fun p => decide (p.2.expiry ≤ now)) = [] :=
        List.map_eq_nil.mp hnil.2
      exact expire_noop hfe
    | cons a0 rest =>
      rw [allocNew_cons c now hav hsp.2.2.2.2 hg] at h1
      exact Except.noConfusion h1

/-- A second sweep at the same time reclaims nothing. -/
theorem expire_twice {s : LeasePool} (hwf : s.WF) (now : Int) :
    (((s.expire now).2).expire now).1 = 0 := by
  rw [expire_fst, (expire_spec hwf now).1, List.filter_filter]
  simp

/-- With no reclaimable lease and no lease for the client, request pops the
head of the available deque. -/
theorem request_fresh_pops_head {s : LeasePool} (hwf : s.WF) {c : String} {now : Int}
    (hnoexp : ∀ p ∈ s.leasesByClient, now < p.2.expiry)
    (hc : dget s.leasesByClient c = none) {a : Nat} {rest : List Nat}
    (hav : s.available = a :: rest) :
    (s.request c now).1 = Except.ok a ∧ (s.request c now).2.available = rest := by
  have hfe : s.leasesByClient.filter (fun p => decide (p.2.expiry ≤ now)) = [] := by
    rw [List.filter_eq_nil_iff]
    intro p hp
    simp only [decide_eq_true_eq]
    have := hnoexp p hp
    omega
  have hexp : (s.expire now).2 = s := expire_noop hfe
  unfold LeasePool.request
  rw [hexp, hc]
  dsimp only
  rw [allocNew_cons c now hav hwf hc]
  exact ⟨rfl, rfl⟩

/- ---------------- LeasePool: entries after each operation ---------------- -/

/-- Every lease tracked after a request was either already tracked or is the
fresh lease expiring at now + lease_seconds; lease_seconds is unchanged. -/
theorem request_entries {s : LeasePool} (hwf : s.WF) (c : String) (now : Int) :
    (s.request c now).2.lease_seconds = s.lease_seconds ∧
    ∀ p ∈ (s.request c now).2.leasesByClient,
      p ∈ s.leasesByClient ∨ p.2.expiry = now + s.lease_seconds := by
  have hsp := expire_spec hwf now
  unfold LeasePool.request
  cases hg : dget (s.expire now).2.leasesByClient c with
  | some lease =>
    have hlive := expire_live hwf now _ (dget_mem hg)
    dsimp only
    rw [if_pos hlive]
    refine ⟨hsp.2.2.2.1, fun p hp => ?_⟩
    rw [hsp.1] at hp
    exact Or.inl (List.mem_filter.mp hp).1
  | none =>
    dsimp only
    cases hav : (s.expire now).2.available with
    | nil =>
      rw [allocNew_nil hav]
      refine ⟨hsp.2.2.2.1, fun p hp => ?_⟩
      rw [hsp.1] at hp
      exact Or.inl (List.mem_filter.mp hp).1
    | cons a rest =>
      rw [allocNew_cons c now hav hsp.2.2.2.2 hg]
      refine ⟨hsp.2.2.2.1, fun p hp => ?_⟩
      dsimp only at hp
      rw [List.mem_append] at hp
      rcases hp with hp | hp
      · rw [hsp.1] at hp
        exact Or.inl (List.mem_filter.mp hp).1
      · rw [List.mem_singleton] at hp
        right
        rw [hp]
        dsimp only
        rw [hsp.2.2.2.1]

/-- Every lease tracked after a renew was either already tracked or expires
at now + lease_seconds; lease_seconds is unchanged. -/
theorem renew_entries {s : LeasePool} (hwf : s.WF) (c : String) (now : Int) :
    (s.renew c now).2.lease_seconds = s.lease_seconds ∧
    ∀ p ∈ (s.renew c now).2.leasesByClient,
      p ∈ s.leasesByClient ∨ p.2.expiry = now + s.lease_seconds := by
  have hsp := expire_spec hwf now
  unfold LeasePool.renew
  cases hg : dget (s.expire now).2.leasesByClient c with
  | some lease =>
    have hlive := expire_live hwf now _ (dget_mem hg)
    dsimp only
    rw [if_pos hlive]
    refine ⟨hsp.2.2.2.1, fun p hp => ?_⟩
    rcases mem_of_mem_dset hp with hp | hp
    · rw [hsp.1] at hp
      exact Or.inl (List.mem_filter.mp hp).1
    · right
      rw [hp.2]
      dsimp only
      rw [hsp.2.2.2.1]
  | none =>
    dsimp only
    obtain ⟨hls, hent⟩ := request_entries hsp.2.2.2.2 c now
    refine ⟨by rw [hls, hsp.2.2.2.1], fun p hp => ?_⟩
    rcases hent p hp with hp2 | hp2
    · rw [hsp.1] at hp2
      exact Or.inl (List.mem_filter.mp hp2).1
    · right
      rw [hp2, hsp.2.2.2.1]

/-- release never adds a lease and keeps lease_seconds. -/
theorem release_entries (s : LeasePool) (c : String) :
    (s.release c).lease_seconds = s.lease_seconds ∧
    ∀ p ∈ (s.release c).leasesByClient, p ∈ s.leasesByClient := by
  unfold LeasePool.release
  cases hg : dget s.leasesByClient c with
  | none => exact ⟨rfl, fun p hp => hp⟩
  | some L => exact ⟨rfl, fun p hp => mem_of_mem_dpop hp⟩

/-- Along any monotone-time call sequence out of a constructed pool, every
tracked lease expiry is at most the last call time plus lease_seconds. -/
theorem leaseReachT_inv {s : LeasePool} {t : Int} (hr : LeaseReachT s t) :
    s.WF ∧ ∀ p ∈ s.leasesByClient, p.2.expiry ≤ t + s.lease_seconds := by
  induction hr with
  | init na pfx dur excl t =>
    refine ⟨WF_init na pfx dur excl, fun p hp => ?_⟩
    simp [LeasePool.init] at hp
  | request s t c now hr hle ih =>
    obtain ⟨hw, hb⟩ := ih
    obtain ⟨hls, hent⟩ := request_entries hw c now
    refine ⟨(request_WF_perm hw c now).1, fun p hp => ?_⟩
    rw [hls]
    rcases hent p hp with h | h
    · have := hb p h
      omega
    · omega
  | renew s t c now hr hle ih =>
    obtain ⟨hw, hb⟩ := ih
    obtain ⟨hls, hent⟩ := renew_entries hw c now
    refine ⟨(renew_WF_perm hw c now).1, fun p hp => ?_⟩
    rw [hls]
    rcases hent p hp with h | h
    · have := hb p h
      omega
    · omega
  | release s t c hr ih =>
    obtain ⟨hw, hb⟩ := ih
    obtain ⟨hls, hent⟩ := release_entries s c
    refine ⟨(release_WF_perm hw c).1, fun p hp => ?_⟩
    rw [hls]
    exact hb p (hent p hp)
  | expire s t now hr hle ih =>
    obtain ⟨hw, hb⟩ := ih
    have hsp := expire_spec hw now
    refine ⟨hsp.2.2.2.2, fun p hp => ?_⟩
    rw [hsp.2.2.2.1]
    rw [hsp.1] at hp
    have := hb p (List.mem_filter.mp hp).1
    omega

/- ---------------- NATTable: port scan ---------------- -/

/-- A successful scan returns the least unmapped port of the scanned window. -/
theorem scanPortAux_some {d : List (Nat × Mapping)} :
    ∀ (fuel lo p : Nat), scanPortAux d lo fuel = some p →
      lo ≤ p ∧ p < lo + fuel ∧ dget d p = none ∧
      ∀ q, lo ≤ q → q < p → dget d q ≠ none := by
  intro fuel
  induction fuel with
  | zero => intro lo p h; simp [scanPortAux] at h
  | succ n ih =>
    intro lo p h
    unfold scanPortAux at h
    by_cases hd : dget d lo = none
    · rw [if_pos hd] at h
      have hlp : lo = p := (Option.some.injEq _ _).mp h
      subst hlp
      exact ⟨le_refl _, by omega, hd, fun q h1 h2 => absurd h2 (by omega)⟩
    · rw [if_neg hd] at h
      obtain ⟨h1, h2, h3, h4⟩ := ih (lo + 1) p h
      refine ⟨by omega, by omega, h3, fun q hq1 hq2 => ?_⟩
      by_cases hq : q = lo
      · rw [hq]; exact hd
      · exact h4 q (by omega) hq2

/-- A failed scan means every port of the scanned window is mapped. -/
theorem scanPortAux_none {d : List (Nat × Mapping)} :
    ∀ (fuel lo : Nat), scanPortAux d lo fuel = none →
      ∀ q, lo ≤ q → q < lo + fuel → dget d q ≠ none := by
  intro fuel
  induction fuel with
  | zero => intro lo h q h1 h2; omega
  | succ n ih =>
    intro lo h q h1 h2
    unfold scanPortAux at h
    by_cases hd : dget d lo = none
    · rw [if_pos hd] at h
      exact Option.noConfusion h
    · rw [if_neg hd] at h
      by_cases hq : q = lo
      · rw [hq]; exact hd
      · exact ih (lo + 1) h q (by omega) (by omega)

/-- If every port of the window is mapped, the scan fails. -/
theorem scanPortAux_none_of {d : List (Nat × Mapping)} :
    ∀ (fuel lo : Nat), (∀ q, lo ≤ q → q < lo + fuel → dget d q ≠ none) →
      scanPortAux d lo fuel = none := by
  intro fuel
  induction fuel with
  | zero => intro lo _; rfl
  | succ n ih =>
    intro lo hall
    unfold scanPortAux
    rw [if_neg (hall lo (le_refl _) (by omega))]
    exact ih (lo + 1) (fun q h1 h2 => hall q (by omega) (by omega))

/-- _alloc_port succeeds exactly on the least free port of the range. -/
theorem allocPort_some {t : NATTable} {p : Nat} (h : t.allocPort = some p) :
    t.pmin ≤ p ∧ p ≤ t.pmax ∧ dget t.ext2int p = none ∧
    ∀ q, t.pmin ≤ q → q < p → dget t.ext2int q ≠ none := by
  obtain ⟨h1, h2, h3, h4⟩ := scanPortAux_some _ _ _ h
  exact ⟨h1, by omega, h3, h4⟩

/-- _alloc_port fails exactly when every port of the range is mapped. -/
theorem allocPort_none_iff {t : NATTable} :
    t.allocPort = none ↔ ∀ q, t.pmin ≤ q → q ≤ t.pmax → dget t.ext2int q ≠ none := by
  constructor
  · intro h q h1 h2
    exact scanPortAux_none _ _ h q h1 (by omega)
  · intro h
    exact scanPortAux_none_of _ _ (fun q h1 h2 => h q h1 (by omega))

/- ---------------- NATTable: invariant preservation ---------------- -/

theorem WFn_init (pub : String) (pmin pmax : Nat) (tmo : Int) :
    (NATTable.init pub pmin pmax tmo).WFn := by
  refine ⟨List.nodup_nil, List.nodup_nil, ?_, ?_, ?_, ?_, ?_⟩ <;>
    intro p hp <;> simp [NATTable.init] at hp

/-- Evicting the mapping that owns one port from both indices preserves
the representation invariant. -/
theorem WFn_natExpireStep {st : NATTable} (h : st.WFn) (port : Nat) :
    (natExpireStep st port).WFn := by
  obtain ⟨ndk, ndp, kk, kp, sy1, sy2, inr⟩ := h
  unfold natExpireStep
  cases hg : dget st.ext2int port with
  | none => exact ⟨ndk, ndp, kk, kp, sy1, sy2, inr⟩
  | some m =>
    have hmemP : (port, m) ∈ st.ext2int := dget_mem hg
    have hmp : m.external_port = port := kp _ hmemP
    have hgK : dget st.int2ext (nkey m) = some m := sy2 _ hmemP
    refine ⟨nodup_keys_dpop ndk _, nodup_keys_dpop ndp _, ?_, ?_, ?_, ?_, ?_⟩
    · intro p hp; exact kk p (mem_of_mem_dpop hp)
    · intro p hp; exact kp p (mem_of_mem_dpop hp)
    · intro p hp
      have hpk : p.1 ≠ nkey m := key_ne_of_mem_dpop ndk hp
      have hpK : p ∈ st.int2ext := mem_of_mem_dpop hp
      have hne : p.2.external_port ≠ port := by
        intro he
        have h1 := sy1 p hpK
        rw [he, hg] at h1
        have h2 : m = p.2 := (Option.some.injEq _ _).mp h1
        apply hpk
        rw [← kk p hpK, ← h2]
      rw [dget_dpop_ne hne]
      exact sy1 p hpK
    · intro p hp
      have hpk : p.1 ≠ port := key_ne_of_mem_dpop ndp hp
      have hpP : p ∈ st.ext2int := mem_of_mem_dpop hp
      have hne : nkey p.2 ≠ nkey m := by
        intro he
        have h1 := sy2 p hpP
        rw [he, hgK] at h1
        have h2 : m = p.2 := (Option.some.injEq _ _).mp h1
        apply hpk
        rw [← kp p hpP, ← h2, hmp]
      rw [dget_dpop_ne hne]
      exact sy2 p hpP
    · intro p hp
      exact inr p (mem_of_mem_dpop hp)

/-- Folding the eviction loop of NATTable.expire over the ports of the
entries selected by a value predicate f removes exactly those entries from
both indices; well-formedness is preserved. -/
theorem natFoldPop_spec (f : Mapping → Bool) :
    ∀ (n : Nat) (st : NATTable),
      (st.ext2int.filter (fun p => f p.2)).length = n → st.WFn →
      ((((st.ext2int.filter (fun p => f p.2)).map Prod.fst).foldl natExpireStep st).ext2int
          = st.ext2int.filter (fun p => !(f p.2))) ∧
      ((((st.ext2int.filter (fun p => f p.2)).map Prod.fst).foldl natExpireStep st).int2ext
          = st.int2ext.filter (fun p => !(f p.2))) ∧
      ((((st.ext2int.filter (fun p => f p.2)).map Prod.fst).foldl natExpireStep st).public_ip
          = st.public_ip) ∧
      ((((st.ext2int.filter (fun p => f p.2)).map Prod.fst).foldl natExpireStep st).pmin
          = st.pmin) ∧
      ((((st.ext2int.filter (fun p => f p.2)).map Prod.fst).foldl natExpireStep st).pmax
          = st.pmax) ∧
      ((((st.ext2int.filter (fun p => f p.2)).map Prod.fst).foldl natExpireStep st).timeout
          = st.timeout) ∧
      (((st.ext2int.filter (fun p => f p.2)).map Prod.fst).foldl natExpireStep st).WFn := by
  intro n
  induction n with
  | zero =>
    intro st hlen hwf
    rw [List.length_eq_zero] at hlen
    have hall : ∀ p ∈ st.ext2int, f p.2 = false := by
      intro p hp
      by_contra hcon
      rw [Bool.not_eq_false] at hcon
      have hmem : p ∈ st.ext2int.filter (fun p => f p.2) := List.mem_filter.mpr ⟨hp, hcon⟩
      rw [hlen] at hmem
      exact absurd hmem (List.not_mem_nil p)
    have hallK : ∀ p ∈ st.int2ext, f p.2 = false := by
      intro p hp
      exact hall _ (dget_mem (hwf.2.2.2.2.1 p hp))
    rw [hlen]
    simp only [List.map_nil, List.foldl_nil]
    refine And.intro ?_ (And.intro ?_ (And.intro ?_ (And.intro ?_ (And.intro ?_ (And.intro ?_ hwf)))))
    · exact (List.filter_eq_self.mpr (fun p hp => by simp [hall p hp])).symm
    · exact (List.filter_eq_self.mpr (fun p hp => by simp [hallK p hp])).symm
    · trivial
    · trivial
    · trivial
    · trivial
  | succ n ih =>
    intro st hlen hwf
    have hwfc := hwf
    obtain ⟨ndk, ndp, kk, kp, sy1, sy2, inr⟩ := hwf
    cases hsplit : st.ext2int.filter (fun p => f p.2) with
    | nil => rw [hsplit] at hlen; simp at hlen
    | cons q rest =>
      obtain ⟨port, m⟩ := q
      have hmemF : (port, m) ∈ st.ext2int.filter (fun p => f p.2) := by
        rw [hsplit]; exact List.mem_cons_self _ _
      have hmemP : (port, m) ∈ st.ext2int := (List.mem_filter.mp hmemF).1
      have hfm : f m = true := by simpa using (List.mem_filter.mp hmemF).2
      have hgP : dget st.ext2int port = some m := mem_dget ndp hmemP
      have hmp : m.external_port = port := kp _ hmemP
      have hgK : dget st.int2ext (nkey m) = some m := sy2 _ hmemP
      have hstep : natExpireStep st port = { st with
          ext2int := dpop st.ext2int port
          int2ext := dpop st.int2ext (nkey m) } := by
        unfold natExpireStep; rw [hgP]
      have hwf1 : (NATTable.mk st.public_ip st.pmin st.pmax st.timeout
          (dpop st.int2ext (nkey m)) (dpop st.ext2int port)).WFn := by
        have h0 := WFn_natExpireStep hwfc port
        rw [hstep] at h0
        exact h0
      have hndF : ((st.ext2int.filter (fun p => f p.2)).map Prod.fst).Nodup :=
        nodup_keys_filter ndp _
      rw [hsplit, List.map_cons, List.nodup_cons] at hndF
      have hcrest : ∀ p ∈ rest, ¬(p.1 = port) := by
        intro p hp he
        exact hndF.1 (he ▸ List.mem_map.mpr ⟨p, hp, rfl⟩)
      have hfilter1 : (dpop st.ext2int port).filter (fun p => f p.2) = rest := by
        rw [dpop_eq_filter ndp, List.filter_filter]
        have hcomm : st.ext2int.filter (fun p => f p.2 && !(decide (p.1 = port)))
            = st.ext2int.filter (fun p => !(decide (p.1 = port)) && f p.2) :=
          List.filter_congr (fun p _ => Bool.and_comm _ _)
        rw [hcomm, ← List.filter_filter, hsplit, List.filter_cons]
        simp only [decide_True, Bool.not_true, Bool.false_eq_true, if_false]
        exact List.filter_eq_self.mpr (fun p hp => by simp [hcrest p hp])
      have hlen1 : ((dpop st.ext2int port).filter (fun p => f p.2)).length = n := by
        rw [hfilter1]
        rw [hsplit] at hlen
        simpa using hlen
      have IH := ih (NATTable.mk st.public_ip st.pmin st.pmax st.timeout
          (dpop st.int2ext (nkey m)) (dpop st.ext2int port)) hlen1 hwf1
      dsimp only at IH
      rw [hfilter1] at IH
      have hbp : (dpop st.ext2int port).filter (fun p => !(f p.2))
          = st.ext2int.filter (fun p => !(f p.2)) := by
        rw [dpop_eq_filter ndp, List.filter_filter]
        refine List.filter_congr (fun p hp => ?_)
        by_cases hpc : p.1 = port
        · have hpL : p.2 = m := by
            refine value_eq_of_mem_dget ndp hp ?_
            rw [hpc]; exact hgP
          simp [hpc, hpL, hfm]
        · simp [hpc]
      have hbk : (dpop st.int2ext (nkey m)).filter (fun p => !(f p.2))
          = st.int2ext.filter (fun p => !(f p.2)) := by
        rw [dpop_eq_filter ndk, List.filter_filter]
        refine List.filter_congr (fun p hp => ?_)
        by_cases hpi : p.1 = nkey m
        · have hpL : p.2 = m := by
            refine value_eq_of_mem_dget ndk hp ?_
            rw [hpi]; exact hgK
          simp [hpi, hpL, hfm]
        · simp [hpi]
      simp only [List.map_cons, List.foldl_cons]
      rw [hstep]
      refine And.intro ?_ (And.intro ?_ (And.intro IH.2.2.1 (And.intro IH.2.2.2.1
        (And.intro IH.2.2.2.2.1 (And.intro IH.2.2.2.2.2.1 IH.2.2.2.2.2.2)))))
      · rw [IH.1, hbp]
      · rw [IH.2.1, hbk]

/-- Characterization of NATTable.expire on a well-formed table: evicted
mappings are exactly those idle for at least timeout. -/
theorem nat_expire_spec {t : NATTable} (h : t.WFn) (now : Int) :
    (t.expire now).2.ext2int
        = t.ext2int.filter (fun p => !(decide (t.timeout ≤ now - p.2.last_seen))) ∧
    (t.expire now).2.int2ext
        = t.int2ext.filter (fun p => !(decide (t.timeout ≤ now - p.2.last_seen))) ∧
    (t.expire now).2.public_ip = t.public_ip ∧
    (t.expire now).2.pmin = t.pmin ∧
    (t.expire now).2.pmax = t.pmax ∧
    (t.expire now).2.timeout = t.timeout ∧
    (t.expire now).2.WFn :=
  natFoldPop_spec (fun m => decide (t.timeout ≤ now - m.last_seen)) _ t rfl h

/-- The count NATTable.expire returns is the number of idle mappings. -/
theorem nat_expire_fst (t : NATTable) (now : Int) :
    (t.expire now).1
      = (t.ext2int.filter (fun p => decide (t.timeout ≤ now - p.2.last_seen))).length := by
  unfold NATTable.expire
  simp

/-- A second eviction sweep at the same time removes nothing. -/
theorem nat_expire_twice {t : NATTable} (hwf : t.WFn) (now : Int) :
    (((t.expire now).2).expire now).1 = 0 := by
  rw [nat_expire_fst, (nat_expire_spec hwf now).1]
  rw [(nat_expire_spec hwf now).2.2.2.2.2.1]
  rw [List.filter_filter]
  simp

/-- Refreshing the shared Mapping object stored under both indices with a
record that keeps both keys preserves the representation invariant. -/
theorem WFn_update_both {t : NATTable} (hwf : t.WFn) {key : String × String × Nat}
    {m m2 : Mapping} (hg : dget t.int2ext key = some m)
    (hk : nkey m2 = nkey m) (hport : m2.external_port = m.external_port) :
    (NATTable.mk t.public_ip t.pmin t.pmax t.timeout
      (dset t.int2ext key m2) (dset t.ext2int m.external_port m2)).WFn := by
  obtain ⟨ndk, ndp, kk, kp, sy1, sy2, inr⟩ := hwf
  have hmemK : (key, m) ∈ t.int2ext := dget_mem hg
  have hkey : nkey m = key := kk _ hmemK
  have hgP : dget t.ext2int m.external_port = some m := sy1 _ hmemK
  have hmemP : (m.external_port, m) ∈ t.ext2int := dget_mem hgP
  refine ⟨nodup_keys_dset ndk _ _, nodup_keys_dset ndp _ _, ?_, ?_, ?_, ?_, ?_⟩
  · intro p hp
    by_cases hpc : p.1 = key
    · have hpv : p.2 = m2 := by
        have h4 := mem_dget (nodup_keys_dset ndk _ _) hp
        rw [hpc, dget_dset_self] at h4
        exact ((Option.some.injEq _ _).mp h4).symm
      rw [hpv, hpc, hk, hkey]
    · have hpOld : p ∈ t.int2ext := by
        rcases mem_of_mem_dset hp with h | h
        · exact h
        · exact absurd h.1 hpc
      exact kk p hpOld
  · intro p hp
    by_cases hpi : p.1 = m.external_port
    · have hpv : p.2 = m2 := by
        have h4 := mem_dget (nodup_keys_dset ndp _ _) hp
        rw [hpi, dget_dset_self] at h4
        exact ((Option.some.injEq _ _).mp h4).symm
      rw [hpv, hpi, hport]
    · have hpOld : p ∈ t.ext2int := by
        rcases mem_of_mem_dset hp with h | h
        · exact h
        · exact absurd h.1 hpi
      exact kp p hpOld
  · intro p hp
    by_cases hpc : p.1 = key
    · have hpv : p.2 = m2 := by
        have h4 := mem_dget (nodup_keys_dset ndk _ _) hp
        rw [hpc, dget_dset_self] at h4
        exact ((Option.some.injEq _ _).mp h4).symm
      rw [hpv]
      have hp2 : m2.external_port = m.external_port := hport
      rw [hp2, dget_dset_self]
    · have hpOld : p ∈ t.int2ext := by
        rcases mem_of_mem_dset hp with h | h
        · exact h
        · exact absurd h.1 hpc
      have hne : p.2.external_port ≠ m.external_port := by
        intro he
        have h1 := sy1 p hpOld
        rw [he, hgP] at h1
        have h2 : m = p.2 := (Option.some.injEq _ _).mp h1
        apply hpc
        rw [← kk p hpOld, ← h2, hkey]
      rw [dget_dset_ne hne]
      exact sy1 p hpOld
  · intro p hp
    by_cases hpi : p.1 = m.external_port
    · have hpv : p.2 = m2 := by
        have h4 := mem_dget (nodup_keys_dset ndp _ _) hp
        rw [hpi, dget_dset_self] at h4
        exact ((Option.some.injEq _ _).mp h4).symm
      rw [hpv, hk, hkey, dget_dset_self]
    · have hpOld : p ∈ t.ext2int := by
        rcases mem_of_mem_dset hp with h | h
        · exact h
        · exact absurd h.1 hpi
      have hne : nkey p.2 ≠ key := by
        intro he
        have h1 := sy2 p hpOld
        rw [he, hg] at h1
        have h2 : m = p.2 := (Option.some.injEq _ _).mp h1
        apply hpi
        rw [← kp p hpOld, ← h2]
      rw [dget_dset_ne hne]
      exact sy2 p hpOld
  · intro p hp
    by_cases hpi : p.1 = m.external_port
    · rw [hpi]
      exact inr _ hmemP
    · have hpOld : p ∈ t.ext2int := by
        rcases mem_of_mem_dset hp with h | h
        · exact h
        · exact absurd h.1 hpi
      exact inr p hpOld

/-- Recording a fresh mapping under a fresh key and a fresh in-range port
preserves the representation invariant. -/
theorem WFn_alloc {t : NATTable} (hwf : t.WFn) {key : String × String × Nat}
    {p : Nat} {m : Mapping} (hkeym : nkey m = key) (hportm : m.external_port = p)
    (hg : dget t.int2ext key = none) (hp : dget t.ext2int p = none)
    (hr1 : t.pmin ≤ p) (hr2 : p ≤ t.pmax) :
    (NATTable.mk t.public_ip t.pmin t.pmax t.timeout
      (dset t.int2ext key m) (dset t.ext2int p m)).WFn := by
  obtain ⟨ndk, ndp, kk, kp, sy1, sy2, inr⟩ := hwf
  rw [dset_eq_append hg, dset_eq_append hp]
  refine ⟨?_, ?_, ?_, ?_, ?_, ?_, ?_⟩
  · rw [List.map_append]
    simp only [List.map_cons, List.map_nil]
    rw [List.nodup_append]
    refine ⟨ndk, List.nodup_singleton _, fun x hx => ?_⟩
    simp only [List.mem_singleton]
    rintro rfl
    rw [dget_eq_none] at hg
    exact hg hx
  · rw [List.map_append]
    simp only [List.map_cons, List.map_nil]
    rw [List.nodup_append]
    refine ⟨ndp, List.nodup_singleton _, fun x hx => ?_⟩
    simp only [List.mem_singleton]
    rintro rfl
    rw [dget_eq_none] at hp
    exact hp hx
  · intro q hq
    rw [List.mem_append] at hq
    rcases hq with hq | hq
    · exact kk q hq
    · rw [List.mem_singleton] at hq
      subst hq
      exact hkeym
  · intro q hq
    rw [List.mem_append] at hq
    rcases hq with hq | hq
    · exact kp q hq
    · rw [List.mem_singleton] at hq
      subst hq
      exact hportm
  · intro q hq
    rw [List.mem_append] at hq
    rcases hq with hq | hq
    · exact dget_append_left (sy1 q hq)
    · rw [List.mem_singleton] at hq
      subst hq
      dsimp only
      rw [hportm, dget_append_right hp]
      simp [dget]
  · intro q hq
    rw [List.mem_append] at hq
    rcases hq with hq | hq
    · exact dget_append_left (sy2 q hq)
    · rw [List.mem_singleton] at hq
      subst hq
      dsimp only
      rw [hkeym, dget_append_right hg]
      simp [dget]
  · intro q hq
    rw [List.mem_append] at hq
    rcases hq with hq | hq
    · exact inr q hq
    · rw [List.mem_singleton] at hq
      subst hq
      exact ⟨hr1, hr2⟩

/- ---------------- NATTable: operation equations ---------------- -/

/-- Unfolding of translate_out in the existing-mapping branch. -/
theorem translate_out_hit {t : NATTable} {proto ip : String} {iport : Nat} (now : Int)
    {m : Mapping} (hg : dget t.int2ext (strLower proto, ip, iport) = some m) :
    t.translate_out proto ip iport now =
      (Except.ok (t.public_ip, m.external_port),
       NATTable.mk t.public_ip t.pmin t.pmax t.timeout
         (dset t.int2ext (strLower proto, ip, iport) { m with last_seen := now })
         (dset t.ext2int m.external_port { m with last_seen := now })) := by
  unfold NATTable.translate_out
  rw [hg]

/-- Unfolding of translate_out in the fresh-allocation branch. -/
theorem translate_out_alloc {t : NATTable} {proto ip : String} {iport : Nat} (now : Int)
    {p : Nat} (hg : dget t.int2ext (strLower proto, ip, iport) = none)
    (hap : t.allocPort = some p) :
    t.translate_out proto ip iport now =
      (Except.ok (t.public_ip, p),
       NATTable.mk t.public_ip t.pmin t.pmax t.timeout
         (dset t.int2ext (strLower proto, ip, iport)
           (Mapping.mk (strLower proto) ip iport p now))
         (dset t.ext2int p (Mapping.mk (strLower proto) ip iport p now))) := by
  unfold NATTable.translate_out
  rw [hg]
  dsimp only
  rw [hap]

/-- Unfolding of translate_out in the exhausted branch. -/
theorem translate_out_exhausted {t : NATTable} {proto ip : String} {iport : Nat} (now : Int)
    (hg : dget t.int2ext (strLower proto, ip, iport) = none)
    (hap : t.allocPort = none) :
    t.translate_out proto ip iport now = (Except.error (), t) := by
  unfold NATTable.translate_out
  rw [hg]
  dsimp only
  rw [hap]

/-- translate_out preserves the invariant and the configured fields. -/
theorem WFn_translate_out {t : NATTable} (hwf : t.WFn) (proto ip : String)
    (iport : Nat) (now : Int) :
    ((t.translate_out proto ip iport now).2).WFn ∧
    (t.translate_out proto ip iport now).2.public_ip = t.public_ip ∧
    (t.translate_out proto ip iport now).2.pmin = t.pmin ∧
    (t.translate_out proto ip iport now).2.pmax = t.pmax ∧
    (t.translate_out proto ip iport now).2.timeout = t.timeout := by
  cases hg : dget t.int2ext (strLower proto, ip, iport) with
  | some m =>
    rw [translate_out_hit now hg]
    exact ⟨WFn_update_both hwf hg rfl rfl, rfl, rfl, rfl, rfl⟩
  | none =>
    cases hap : t.allocPort with
    | none =>
      rw [translate_out_exhausted now hg hap]
      exact ⟨hwf, rfl, rfl, rfl, rfl⟩
    | some p =>
      obtain ⟨h1, h2, h3, _⟩ := allocPort_some hap
      rw [translate_out_alloc now hg hap]
      exact ⟨WFn_alloc hwf rfl rfl hg h3 h1 h2, rfl, rfl, rfl, rfl⟩

/-- translate_in preserves the invariant and the configured fields. -/
theorem WFn_translate_in {t : NATTable} (hwf : t.WFn) (port : Nat) (now : Option Int) :
    ((t.translate_in port now).2).WFn ∧
    (t.translate_in port now).2.public_ip = t.public_ip ∧
    (t.translate_in port now).2.pmin = t.pmin ∧
    (t.translate_in port now).2.pmax = t.pmax ∧
    (t.translate_in port now).2.timeout = t.timeout := by
  unfold NATTable.translate_in
  cases hg : dget t.ext2int port with
  | none => exact ⟨hwf, rfl, rfl, rfl, rfl⟩
  | some m =>
    cases now with
    | none => exact ⟨hwf, rfl, rfl, rfl, rfl⟩
    | some tv =>
      dsimp only
      have hmemP : (port, m) ∈ t.ext2int := dget_mem hg
      have hmp : m.external_port = port := hwf.2.2.2.1 _ hmemP
      have hgK : dget t.int2ext (nkey m) = some m := hwf.2.2.2.2.2.1 _ hmemP
      refine ⟨?_, rfl, rfl, rfl, rfl⟩
      rw [← hmp]
      exact @WFn_update_both _ hwf (nkey m) m { m with last_seen := tv } hgK rfl rfl

/-- touch_by_internal preserves the invariant and the configured fields. -/
theorem WFn_touch {t : NATTable} (hwf : t.WFn) (proto ip : String)
    (iport : Nat) (now : Int) :
    ((t.touch_by_internal proto ip iport now).2).WFn ∧
    (t.touch_by_internal proto ip iport now).2.public_ip = t.public_ip ∧
    (t.touch_by_internal proto ip iport now).2.pmin = t.pmin ∧
    (t.touch_by_internal proto ip iport now).2.pmax = t.pmax ∧
    (t.touch_by_internal proto ip iport now).2.timeout = t.timeout := by
  unfold NATTable.touch_by_internal
  cases hg : dget t.int2ext (strLower proto, ip, iport) with
  | none => exact ⟨hwf, rfl, rfl, rfl, rfl⟩
  | some m =>
    dsimp only
    exact ⟨WFn_update_both hwf hg rfl rfl, rfl, rfl, rfl, rfl⟩

/-- release preserves the invariant and the configured fields. -/
theorem WFn_release {t : NATTable} (hwf : t.WFn) (proto ip : String) (iport : Nat) :
    ((t.release proto ip iport).2).WFn ∧
    (t.release proto ip iport).2.public_ip = t.public_ip ∧
    (t.release proto ip iport).2.pmin = t.pmin ∧
    (t.release proto ip iport).2.pmax = t.pmax ∧
    (t.release proto ip iport).2.timeout = t.timeout := by
  unfold NATTable.release
  cases hg : dget t.int2ext (strLower proto, ip, iport) with
  | none => exact ⟨hwf, rfl, rfl, rfl, rfl⟩
  | some m =>
    dsimp only
    obtain ⟨ndk, ndp, kk, kp, sy1, sy2, inr⟩ := hwf
    have hmemK : ((strLower proto, ip, iport), m) ∈ t.int2ext := dget_mem hg
    have hkey : nkey m = (strLower proto, ip, iport) := kk _ hmemK
    have hgP : dget t.ext2int m.external_port = some m := sy1 _ hmemK
    refine ⟨⟨nodup_keys_dpop ndk _, nodup_keys_dpop ndp _, ?_, ?_, ?_, ?_, ?_⟩, rfl, rfl, rfl, rfl⟩
    · intro p hp; exact kk p (mem_of_mem_dpop hp)
    · intro p hp; exact kp p (mem_of_mem_dpop hp)
    · intro p hp
      have hpk : p.1 ≠ (strLower proto, ip, iport) := key_ne_of_mem_dpop ndk hp
      have hpK : p ∈ t.int2ext := mem_of_mem_dpop hp
      have hne : p.2.external_port ≠ m.external_port := by
        intro he
        have h1 := sy1 p hpK
        rw [he, hgP] at h1
        have h2 : m = p.2 := (Option.some.injEq _ _).mp h1
        apply hpk
        rw [← kk p hpK, ← h2, hkey]
      rw [dget_dpop_ne hne]
      exact sy1 p hpK
    · intro p hp
      have hpk : p.1 ≠ m.external_port := key_ne_of_mem_dpop ndp hp
      have hpP : p ∈ t.ext2int := mem_of_mem_dpop hp
      have hne : nkey p.2 ≠ (strLower proto, ip, iport) := by
        intro he
        have h1 := sy2 p hpP
        rw [he, hg] at h1
        have h2 : m = p.2 := (Option.some.injEq _ _).mp h1
        apply hpk
        rw [← kp p hpP, ← h2]
      rw [dget_dpop_ne hne]
      exact sy2 p hpP
    · intro p hp
      exact inr p (mem_of_mem_dpop hp)

/-- Every reachable NATTable state is well-formed. -/
theorem natReach_WFn {t : NATTable} (hr : NATReach t) : t.WFn := by
  induction hr with
  | init pub pmin pmax tmo => exact WFn_init pub pmin pmax tmo
  | out t proto ip iport now hr ih => exact (WFn_translate_out ih proto ip iport now).1
  | inb t port now hr ih => exact (WFn_translate_in ih port now).1
  | touch t proto ip iport now hr ih => exact (WFn_touch ih proto ip iport now).1
  | rel t proto ip iport hr ih => exact (WFn_release ih proto ip iport).1
  | expire t now hr ih => exact (nat_expire_spec ih now).2.2.2.2.2.2

/- ---------------- NATTable: port counting ---------------- -/

theorem dget_dset_isSome {α β : Type} [DecidableEq α] {d : List (α × β)} {key k : α} {v : β}
    (h : (dget d key).isSome = true) : (dget (dset d k v) key).isSome = true := by
  by_cases hk : key = k
  · rw [hk, dget_dset_self]; rfl
  · rw [dget_dset_ne hk]; exact h

/-- While fewer mappings exist than the range has ports, a port is free. -/
theorem allocPort_isSome_of_room {t : NATTable} (hwf : t.WFn)
    (hlen : t.ext2int.length < t.pmax + 1 - t.pmin) : t.allocPort ≠ none := by
  intro hnone
  have hall := allocPort_none_iff.mp hnone
  have hsub : Finset.Icc t.pmin t.pmax ⊆ (t.ext2int.map Prod.fst).toFinset := by
    intro q hq
    rw [Finset.mem_Icc] at hq
    have hm := hall q hq.1 hq.2
    rw [List.mem_toFinset]
    by_contra hnm
    exact hm (dget_eq_none.mpr hnm)
  have hcard := Finset.card_le_card hsub
  rw [Nat.card_Icc, List.toFinset_card_of_nodup hwf.2.1, List.length_map] at hcard
  omega

/-- Once the table holds as many mappings as the range has ports, every
port of the range is owned and allocation fails. -/
theorem allocPort_none_of_full {t : NATTable} (hwf : t.WFn)
    (hlen : t.pmax + 1 - t.pmin ≤ t.ext2int.length) : t.allocPort = none := by
  have hsub : (t.ext2int.map Prod.fst).toFinset ⊆ Finset.Icc t.pmin t.pmax := by
    intro q hq
    rw [List.mem_toFinset] at hq
    obtain ⟨p, hp, hpq⟩ := List.mem_map.mp hq
    obtain ⟨hr1, hr2⟩ := hwf.2.2.2.2.2.2 p hp
    rw [Finset.mem_Icc]
    omega
  have hcard : (Finset.Icc t.pmin t.pmax).card ≤ (t.ext2int.map Prod.fst).toFinset.card := by
    rw [List.toFinset_card_of_nodup hwf.2.1, List.length_map, Nat.card_Icc]
    exact hlen
  have heq := Finset.eq_of_subset_of_card_le hsub hcard
  rw [allocPort_none_iff]
  intro q h1 h2 hdq
  rw [dget_eq_none] at hdq
  have hq : q ∈ (t.ext2int.map Prod.fst).toFinset := by
    rw [heq, Finset.mem_Icc]
    exact ⟨h1, h2⟩
  rw [List.mem_toFinset] at hq
  exact hdq hq

/-- Running translate_out over fresh, pairwise distinct normalized tuples
that fit in the remaining port capacity: every call succeeds, each tuple
ends up bound, and the mapping count grows by one per call. -/
theorem runOuts_spec (now : Int) :
    ∀ (ks : List (String × String × Nat)) (t : NATTable), t.WFn →
      (ks.map normKey).Nodup →
      (∀ k ∈ ks, dget t.int2ext (normKey k) = none) →
      t.ext2int.length + ks.length ≤ t.pmax + 1 - t.pmin →
      (∀ r ∈ (runOuts t ks now).1, ∃ q, r = Except.ok (t.public_ip, q)) ∧
      (runOuts t ks now).2.WFn ∧
      (runOuts t ks now).2.ext2int.length = t.ext2int.length + ks.length ∧
      (runOuts t ks now).2.public_ip = t.public_ip ∧
      (runOuts t ks now).2.pmin = t.pmin ∧
      (runOuts t ks now).2.pmax = t.pmax ∧
      (runOuts t ks now).2.timeout = t.timeout ∧
      (∀ k ∈ ks, (dget (runOuts t ks now).2.int2ext (normKey k)).isSome = true) ∧
      (∀ key, (dget t.int2ext key).isSome = true →
        (dget (runOuts t ks now).2.int2ext key).isSome = true) ∧
      (∀ key, (dget (runOuts t ks now).2.int2ext key).isSome = true →
        (dget t.int2ext key).isSome = true ∨ key ∈ ks.map normKey) := by
  intro ks
  induction ks with
  | nil =>
    intro t hwf _ _ _
    refine ⟨?_, hwf, by simp [runOuts], rfl, rfl, rfl, rfl, ?_, ?_, ?_⟩
    · intro r hr
      simp [runOuts] at hr
    · intro k hk
      simp at hk
    · intro key h
      exact h
    · intro key h
      exact Or.inl h
  | cons k rest ih =>
    intro t hwf hnd hfresh hroom
    have hkfresh : dget t.int2ext (normKey k) = none := hfresh k (List.mem_cons_self _ _)
    have hroom1 : t.ext2int.length < t.pmax + 1 - t.pmin := by
      rw [List.length_cons] at hroom
      omega
    rw [List.map_cons, List.nodup_cons] at hnd
    cases hap : t.allocPort with
    | none => exact absurd hap (allocPort_isSome_of_room hwf hroom1)
    | some p =>
      obtain ⟨hr1, hr2, hfree, _⟩ := allocPort_some hap
      have heq : t.translate_out k.1 k.2.1 k.2.2 now =
          (Except.ok (t.public_ip, p),
           NATTable.mk t.public_ip t.pmin t.pmax t.timeout
             (dset t.int2ext (normKey k) (Mapping.mk (strLower k.1) k.2.1 k.2.2 p now))
             (dset t.ext2int p (Mapping.mk (strLower k.1) k.2.1 k.2.2 p now))) :=
        translate_out_alloc now hkfresh hap
      have hwf1 : (NATTable.mk t.public_ip t.pmin t.pmax t.timeout
          (dset t.int2ext (normKey k) (Mapping.mk (strLower k.1) k.2.1 k.2.2 p now))
          (dset t.ext2int p (Mapping.mk (strLower k.1) k.2.1 k.2.2 p now))).WFn :=
        WFn_alloc hwf rfl rfl hkfresh hfree hr1 hr2
      have hfresh1 : ∀ k2 ∈ rest,
          dget (dset t.int2ext (normKey k) (Mapping.mk (strLower k.1) k.2.1 k.2.2 p now))
            (normKey k2) = none := by
        intro k2 hk2
        have hne : normKey k2 ≠ normKey k := by
          intro he
          exact hnd.1 (he ▸ List.mem_map.mpr ⟨k2, hk2, rfl⟩)
        rw [dget_dset_ne hne]
        exact hfresh k2 (List.mem_cons_of_mem _ hk2)
      have hlen1 : (dset t.ext2int p (Mapping.mk (strLower k.1) k.2.1 k.2.2 p now)).length
          = t.ext2int.length + 1 := length_dset_none hfree _
      have hroom2 : (NATTable.mk t.public_ip t.pmin t.pmax t.timeout
          (dset t.int2ext (normKey k) (Mapping.mk (strLower k.1) k.2.1 k.2.2 p now))
          (dset t.ext2int p (Mapping.mk (strLower k.1) k.2.1 k.2.2 p now))).ext2int.length
          + rest.length ≤ t.pmax + 1 - t.pmin := by
        show (dset t.ext2int p (Mapping.mk (strLower k.1) k.2.1 k.2.2 p now)).length
          + rest.length ≤ t.pmax + 1 - t.pmin
        rw [hlen1]
        rw [List.length_cons] at hroom
        omega
      obtain ⟨ih1, ih2, ih3, ih4, ih5, ih6, ih7, ih8, ih9, ih10⟩ :=
        ih (NATTable.mk t.public_ip t.pmin t.pmax t.timeout
          (dset t.int2ext (normKey k) (Mapping.mk (strLower k.1) k.2.1 k.2.2 p now))
          (dset t.ext2int p (Mapping.mk (strLower k.1) k.2.1 k.2.2 p now)))
          hwf1 hnd.2 hfresh1 hroom2
      have hrun : runOuts t (k :: rest) now =
          ((t.translate_out k.1 k.2.1 k.2.2 now).1 ::
            (runOuts (t.translate_out k.1 k.2.1 k.2.2 now).2 rest now).1,
           (runOuts (t.translate_out k.1 k.2.1 k.2.2 now).2 rest now).2) := rfl
      rw [hrun, heq]
      dsimp only
      refine And.intro ?_ (And.intro ih2 (And.intro ?_ (And.intro ih4 (And.intro ih5
        (And.intro ih6 (And.intro ih7 (And.intro ?_ (And.intro ?_ ?_))))))))
      · intro r hr
        rw [List.mem_cons] at hr
        rcases hr with hr | hr
        · exact ⟨p, hr⟩
        · exact ih1 r hr
      · rw [ih3]
        show (dset t.ext2int p (Mapping.mk (strLower k.1) k.2.1 k.2.2 p now)).length
          + rest.length = t.ext2int.length + (k :: rest).length
        rw [hlen1, List.length_cons]
        omega
      · intro k2 hk2
        rw [List.mem_cons] at hk2
        rcases hk2 with hk2 | hk2
        · subst hk2
          apply ih9
          show (dget (dset t.int2ext (normKey k2) (Mapping.mk (strLower k2.1) k2.2.1 k2.2.2 p now))
            (normKey k2)).isSome = true
          rw [dget_dset_self]
          rfl
        · exact ih8 k2 hk2
      · intro key hkey
        apply ih9
        exact dget_dset_isSome hkey
      · intro key hkey
        rcases ih10 key hkey with h | h
        · by_cases hkk : key = normKey k
          · right
            rw [List.map_cons, hkk]
            exact List.mem_cons_self _ _
          · left
            show (dget t.int2ext key).isSome = true
            have : dget (dset t.int2ext (normKey k)
                (Mapping.mk (strLower k.1) k.2.1 k.2.2 p now)) key = dget t.int2ext key :=
              dget_dset_ne hkk
            rw [← this]
            exact h
        · right
          rw [List.map_cons]
          exact List.mem_cons_of_mem _ h

/- ---------------- Claims ---------------- -/

/-- C1: for every LeasePool and every sequence of request/renew/release/
expire operations, the available deque and the leased addresses together
are a permutation of the constructed host set (the CIDR hosts minus
exclusions and the implicit gateway), and no address is both available and
leased — no address is lost or duplicated. -/
theorem C1_pool_conservation (netAddr prefixLen : Nat) (dur : Int) (excl : List Nat)
    (s : LeasePool) (hr : LeaseReach (LeasePool.init netAddr prefixLen dur excl) s) :
    ((s.available ++ leasedIps s).Perm (LeasePool.init netAddr prefixLen dur excl).available) ∧
    (∀ a : Nat, ¬(a ∈ s.available ∧ a ∈ leasedIps s)) := by
  obtain ⟨hw, hp⟩ := leaseReach_WF_perm hr (WF_init netAddr prefixLen dur excl)
  have hinit : leasedIps (LeasePool.init netAddr prefixLen dur excl) = [] := rfl
  rw [hinit, List.append_nil] at hp
  refine ⟨hp, ?_⟩
  have hnd0 : (LeasePool.init netAddr prefixLen dur excl).available.Nodup :=
    (WF_init netAddr prefixLen dur excl).2.2.2.2.2.2.1
  have hnd : (s.available ++ leasedIps s).Nodup := hp.nodup_iff.mpr hnd0
  rw [List.nodup_append] at hnd
  intro a ha
  exact hnd.2.2 ha.1 ha.2

/-- Witness for C1 at a concrete reachable state of 10.0.0.0/29. -/
theorem C1_pool_conservation_witness :
    ((((LeasePool.init 167772160 29 100 []).request "alice" 0).2.available
        ++ leasedIps ((LeasePool.init 167772160 29 100 []).request "alice" 0).2).Perm
      (LeasePool.init 167772160 29 100 []).available) ∧
    (∀ a : Nat, ¬(a ∈ ((LeasePool.init 167772160 29 100 []).request "alice" 0).2.available
        ∧ a ∈ leasedIps ((LeasePool.init 167772160 29 100 []).request "alice" 0).2)) :=
  C1_pool_conservation 167772160 29 100 [] _
    (LeaseReach.request _ _ "alice" 0 (LeaseReach.refl _))

/-- C3: requesting twice with the same client, the second time t2 with
t1 ≤ t2 strictly before the expiry the first call left in place, returns
the identical address both times and leaves the client's lease (address
and expiry) unchanged. -/
theorem C3_idempotent_request (s : LeasePool) (c : String) (t1 t2 : Int) (a : Nat)
    (s1 : LeasePool) (L : Lease) (hwf : s.WF)
    (hreq : s.request c t1 = (Except.ok a, s1)) (h12 : t1 ≤ t2)
    (hL : dget s1.leasesByClient c = some L) (ht2 : t2 < L.expiry) :
    L.ip = a ∧ (s1.request c t2).1 = Except.ok a ∧
    dget (s1.request c t2).2.leasesByClient c = some L := by
  have hw1 : s1.WF := by
    have h0 := (request_WF_perm hwf c t1).1
    rw [hreq] at h0
    exact h0
  have hipa : L.ip = a := by
    refine @request_ok_ip s hwf c t1 a L ?_ ?_
    · rw [hreq]
    · rw [hreq]
      exact hL
  have hdg2 : dget (s1.expire t2).2.leasesByClient c = some L :=
    dget_expire_live hw1 hL t2 ht2
  have hreq2 : s1.request c t2 = (Except.ok L.ip, (s1.expire t2).2) :=
    request_hit hdg2 ht2
  refine ⟨hipa, ?_, ?_⟩
  · rw [hreq2, hipa]
  · rw [hreq2]
    exact hdg2

/-- Witness for C3 on 10.0.0.0/29 with lease_seconds 100 at times 0 and 5. -/
theorem C3_idempotent_request_witness :
    (Lease.mk "c1" 167772162 100).ip = 167772162 ∧
    ((((LeasePool.init 167772160 29 100 []).request "c1" 0).2).request "c1" 5).1
      = Except.ok 167772162 ∧
    dget ((((LeasePool.init 167772160 29 100 []).request "c1" 0).2).request "c1" 5).2.leasesByClient
      "c1" = some (Lease.mk "c1" 167772162 100) :=
  C3_idempotent_request (LeasePool.init 167772160 29 100 []) "c1" 0 5 167772162
    ((LeasePool.init 167772160 29 100 []).request "c1" 0).2 (Lease.mk "c1" 167772162 100)
    (by decide) (by decide) (by decide) (by decide) (by decide)

/-- C5: when request raises ResourceExhausted or translate_out raises
PortExhausted, the raising call has no side effect: the component state
after the call equals the state before it. -/
theorem C5_no_side_effect_on_exhaustion :
    (∀ (s : LeasePool) (c : String) (now : Int), s.WF →
        (s.request c now).1 = Except.error () → (s.request c now).2 = s) ∧
    (∀ (t : NATTable) (proto ip : String) (iport : Nat) (now : Int),
        (t.translate_out proto ip iport now).1 = Except.error () →
        (t.translate_out proto ip iport now).2 = t) := by
  constructor
  · intro s c now hwf h1
    exact request_error_state hwf h1
  · intro t proto ip iport now h1
    cases hg : dget t.int2ext (strLower proto, ip, iport) with
    | some m =>
      rw [translate_out_hit now hg] at h1
      exact Except.noConfusion h1
    | none =>
      cases hap : t.allocPort with
      | none => rw [translate_out_exhausted now hg hap]
      | some p =>
        rw [translate_out_alloc now hg hap] at h1
        exact Except.noConfusion h1

/-- Witness for C5: an exhausted /32 pool and a filled two-port NAT range. -/
theorem C5_no_side_effect_on_exhaustion_witness :
    ((LeasePool.init 167772165 32 100 []).request "c9" 0).2
      = LeasePool.init 167772165 32 100 [] ∧
    ((((NATTable.init "9.9.9.9" 50000 50001 60).translate_out "udp" "a" 1 0).2.translate_out
        "udp" "b" 2 0).2.translate_out "udp" "c" 3 0).2
      = (((NATTable.init "9.9.9.9" 50000 50001 60).translate_out "udp" "a" 1 0).2.translate_out
        "udp" "b" 2 0).2 :=
  ⟨C5_no_side_effect_on_exhaustion.1 (LeasePool.init 167772165 32 100 []) "c9" 0
      (by decide) (by decide),
   C5_no_side_effect_on_exhaustion.2 _ "udp" "c" 3 0 (by decide)⟩

/-- C6: release appends the released address to the tail of the available
deque, unconditionally when a lease is present and with no time check; it
is a no-op otherwise; and a fresh allocation pops the head of the deque,
so released addresses are reused in release order after the never-used
addresses are exhausted. -/
theorem C6_release_fifo :
    (∀ (s : LeasePool) (c : String) (L : Lease), dget s.leasesByClient c = some L →
      s.release c = LeasePool.mk s.lease_seconds (s.available ++ [L.ip])
        (dpop s.leasesByClient c) (dpop s.leasesByIp L.ip)) ∧
    (∀ (s : LeasePool) (c : String), dget s.leasesByClient c = none → s.release c = s) ∧
    (∀ (s : LeasePool) (c : String) (now : Int) (a : Nat) (rest : List Nat), s.WF →
      (∀ p ∈ s.leasesByClient, now < p.2.expiry) → dget s.leasesByClient c = none →
      s.available = a :: rest →
      (s.request c now).1 = Except.ok a ∧ (s.request c now).2.available = rest) := by
  refine ⟨?_, ?_, ?_⟩
  · intro s c L hg
    unfold LeasePool.release
    rw [hg]
  · intro s c hg
    unfold LeasePool.release
    rw [hg]
  · intro s c now a rest hwf hlive hc hav
    exact request_fresh_pops_head hwf hlive hc hav

/-- Witness for C6 on 10.0.0.0/29 with one lease held by c1. -/
theorem C6_release_fifo_witness :
    (((LeasePool.init 167772160 29 100 []).request "c1" 0).2.release "c1"
      = LeasePool.mk 100
          (((LeasePool.init 167772160 29 100 []).request "c1" 0).2.available ++ [167772162])
          (dpop ((LeasePool.init 167772160 29 100 []).request "c1" 0).2.leasesByClient "c1")
          (dpop ((LeasePool.init 167772160 29 100 []).request "c1" 0).2.leasesByIp 167772162)) ∧
    ((LeasePool.init 167772160 29 100 []).release "nobody"
      = LeasePool.init 167772160 29 100 []) ∧
    (((LeasePool.init 167772160 29 100 []).request "c2" 7).1 = Except.ok 167772162 ∧
      ((LeasePool.init 167772160 29 100 []).request "c2" 7).2.available
        = [167772163, 167772164, 167772165, 167772166]) :=
  ⟨C6_release_fifo.1 ((LeasePool.init 167772160 29 100 []).request "c1" 0).2 "c1"
      (Lease.mk "c1" 167772162 100) (by decide),
   C6_release_fifo.2.1 (LeasePool.init 167772160 29 100 []) "nobody" (by decide),
   C6_release_fifo.2.2 (LeasePool.init 167772160 29 100 []) "c2" 7 167772162
      [167772163, 167772164, 167772165, 167772166] (by decide) (by decide) (by decide) (by decide)⟩

/-- C7: LeasePool.expire returns exactly the number of leases with
expiry ≤ now and returns their addresses to the available deque;
NATTable.expire returns exactly the number of mappings idle for at least
timeout and frees their external ports; a second expire at the same time
returns 0 for both. -/
theorem C7_expire_counts :
    (∀ (s : LeasePool) (now : Int), s.WF →
      (s.expire now).1 = s.leasesByClient.countP (fun p => decide (p.2.expiry ≤ now)) ∧
      (s.expire now).2.available = s.available
        ++ (s.leasesByClient.filter (fun p => decide (p.2.expiry ≤ now))).map (fun p => p.2.ip) ∧
      (((s.expire now).2).expire now).1 = 0) ∧
    (∀ (t : NATTable) (now : Int), t.WFn →
      (t.expire now).1 = t.ext2int.countP (fun p => decide (t.timeout ≤ now - p.2.last_seen)) ∧
      (∀ (port : Nat) (m : Mapping), (port, m) ∈ t.ext2int → t.timeout ≤ now - m.last_seen →
        dget (t.expire now).2.ext2int port = none) ∧
      (((t.expire now).2).expire now).1 = 0) := by
  constructor
  · intro s now hwf
    refine ⟨?_, (expire_spec hwf now).2.2.1, expire_twice hwf now⟩
    rw [expire_fst, List.countP_eq_length_filter]
  · intro t now hwf
    refine ⟨?_, ?_, nat_expire_twice hwf now⟩
    · rw [nat_expire_fst, List.countP_eq_length_filter]
    · intro port m hmem hidle
      have hg : dget t.ext2int port = some m := mem_dget hwf.2.1 hmem
      rw [(nat_expire_spec hwf now).1]
      rw [dget_filter_of_some hwf.2.1 _ hg]
      simp only [decide_eq_true_eq]
      rw [if_neg]
      simp only [Bool.not_eq_true', decide_eq_false_iff_not, not_not]
      omega

/-- Witness for C7: the 10.0.0.0/30 scenario at time 11 and the two-entry
NAT table from the test scenario at time 100. -/
theorem C7_expire_counts_witness :
    (((LeasePool.init 167772160 30 10 []).request "c1" 0).2.expire 11).1
      = (((LeasePool.init 167772160 30 10 []).request "c1" 0).2.leasesByClient.countP
          (fun p => decide (p.2.expiry ≤ 11))) ∧
    (((((NATTable.init "203.0.113.5" 40000 40005 30).translate_out "tcp" "192.168.0.10" 12345
        0).2.translate_out "tcp" "192.168.0.11" 12346 1).2).expire 100).1
      = ((((NATTable.init "203.0.113.5" 40000 40005 30).translate_out "tcp" "192.168.0.10" 12345
        0).2.translate_out "tcp" "192.168.0.11" 12346 1).2).ext2int.countP
          (fun p => decide ((30 : Int) ≤ 100 - p.2.last_seen)) ∧
    dget ((((((NATTable.init "203.0.113.5" 40000 40005 30).translate_out "tcp" "192.168.0.10"
        12345 0).2.translate_out "tcp" "192.168.0.11" 12346 1).2).expire 100).2).ext2int 40000
      = none ∧
    ((((LeasePool.init 167772160 30 10 []).request "c1" 0).2.expire 11).2.expire 11).1 = 0 :=
  ⟨(C7_expire_counts.1 ((LeasePool.init 167772160 30 10 []).request "c1" 0).2 11 (by decide)).1,
   (C7_expire_counts.2 (((NATTable.init "203.0.113.5" 40000 40005 30).translate_out "tcp"
      "192.168.0.10" 12345 0).2.translate_out "tcp" "192.168.0.11" 12346 1).2 100 (by decide)).1,
   (C7_expire_counts.2 (((NATTable.init "203.0.113.5" 40000 40005 30).translate_out "tcp"
      "192.168.0.10" 12345 0).2.translate_out "tcp" "192.168.0.11" 12346 1).2 100 (by decide)).2.1
      40000 (Mapping.mk "tcp" "192.168.0.10" 12345 40000 0) (by decide) (by decide),
   (C7_expire_counts.1 ((LeasePool.init 167772160 30 10 []).request "c1" 0).2 11 (by decide)).2.2⟩

/-- C8: for a client with a live lease, renew returns the existing address
and sets the expiry to now + lease_seconds; along a monotone-time call
history the new expiry is never smaller than the old one. -/
theorem C8_renew_extends (s : LeasePool) (t : Int) (c : String) (now : Int) (L : Lease)
    (hr : LeaseReachT s t) (hle : t ≤ now)
    (hg : dget s.leasesByClient c = some L) (hlive : now < L.expiry) :
    (s.renew c now).1 = Except.ok L.ip ∧
    dget (s.renew c now).2.leasesByClient c = some { L with expiry := now + s.lease_seconds } ∧
    L.expiry ≤ now + s.lease_seconds := by
  obtain ⟨hwf, hbound⟩ := leaseReachT_inv hr
  have hb := hbound _ (dget_mem hg)
  have hdg2 : dget (s.expire now).2.leasesByClient c = some L :=
    dget_expire_live hwf hg now hlive
  have hls : (s.expire now).2.lease_seconds = s.lease_seconds := (expire_spec hwf now).2.2.2.1
  unfold LeasePool.renew
  rw [hdg2]
  dsimp only
  rw [if_pos hlive]
  refine ⟨rfl, ?_, by dsimp only at hb; omega⟩
  dsimp only
  rw [dget_dset_self, hls]

/-- Witness for C8 on a monotone history over 10.0.0.0/29: request at 0,
renew at 5. -/
theorem C8_renew_extends_witness :
    ((((LeasePool.init 167772160 29 100 []).request "c1" 0).2).renew "c1" 5).1
      = Except.ok 167772162 ∧
    dget ((((LeasePool.init 167772160 29 100 []).request "c1" 0).2).renew "c1" 5).2.leasesByClient
      "c1" = some (Lease.mk "c1" 167772162 105) ∧
    (Lease.mk "c1" 167772162 100).expiry
      ≤ 5 + ((LeasePool.init 167772160 29 100 []).request "c1" 0).2.lease_seconds :=
  C8_renew_extends ((LeasePool.init 167772160 29 100 []).request "c1" 0).2 0 "c1" 5
    (Lease.mk "c1" 167772162 100)
    (LeaseReachT.request (LeasePool.init 167772160 29 100 []) 0 "c1" 0
      (LeaseReachT.init 167772160 29 100 [] 0) (by decide))
    (by decide) (by decide) (by decide)

/-- C10: a /32 network has a single host address, which the constructor
excludes as the implicit gateway, so the available pool is empty even
though the host set is nonempty, available_count returns 0 and every fresh
request raises ResourceExhausted. -/
theorem C10_slash32_pool_empty (netAddr : Nat) (dur : Int) (excl : List Nat)
    (c : String) (now : Int) :
    hostsOf netAddr 32 = [netAddr] ∧
    (LeasePool.init netAddr 32 dur excl).available = [] ∧
    (LeasePool.init netAddr 32 dur excl).available_count = 0 ∧
    ((LeasePool.init netAddr 32 dur excl).request c now).1 = Except.error () := by
  have h32 : hostsOf netAddr 32 = [netAddr] := rfl
  have havail : (LeasePool.init netAddr 32 dur excl).available = [] := by
    simp only [LeasePool.init]
    rw [h32]
    simp
  have hexp : ((LeasePool.init netAddr 32 dur excl).expire now).2
      = LeasePool.init netAddr 32 dur excl := rfl
  refine ⟨h32, havail, ?_, ?_⟩
  · unfold LeasePool.available_count
    rw [havail]
    rfl
  · unfold LeasePool.request
    rw [hexp]
    have hdg : dget (LeasePool.init netAddr 32 dur excl).leasesByClient c = none := rfl
    rw [hdg]
    dsimp only
    rw [allocNew_nil havail]

/-- C2: translate_out on an unmapped tuple allocates the lowest in-range
port no live mapping owns, records the mapping in both indices with
last_seen = now, and returns it; it raises PortExhausted exactly when
every port of the range is mapped; and allocating N+1 distinct tuples into
a range of N ports from a fresh table succeeds N times, raises on the
last call, and leaves the first N bindings in place. -/
theorem C2_translate_out_allocation :
    (∀ (t : NATTable) (proto ip : String) (iport : Nat) (now : Int) (p : Nat),
      dget t.int2ext (strLower proto, ip, iport) = none →
      t.allocPort = some p →
      (t.pmin ≤ p ∧ p ≤ t.pmax ∧ dget t.ext2int p = none ∧
        (∀ q, t.pmin ≤ q → q < p → dget t.ext2int q ≠ none)) ∧
      (t.translate_out proto ip iport now).1 = Except.ok (t.public_ip, p) ∧
      dget (t.translate_out proto ip iport now).2.int2ext (strLower proto, ip, iport)
        = some (Mapping.mk (strLower proto) ip iport p now) ∧
      dget (t.translate_out proto ip iport now).2.ext2int p
        = some (Mapping.mk (strLower proto) ip iport p now)) ∧
    (∀ (t : NATTable) (proto ip : String) (iport : Nat) (now : Int),
      dget t.int2ext (strLower proto, ip, iport) = none →
      ((t.translate_out proto ip iport now).1 = Except.error ()
        ↔ ∀ q, t.pmin ≤ q → q ≤ t.pmax → dget t.ext2int q ≠ none)) ∧
    (∀ (pub : String) (pmin pmax : Nat) (tmo now : Int)
      (ks : List (String × String × Nat)) (klast : String × String × Nat),
      ((ks ++ [klast]).map normKey).Nodup →
      ks.length = pmax + 1 - pmin →
      (∀ r ∈ (runOuts (NATTable.init pub pmin pmax tmo) ks now).1,
        ∃ q, r = Except.ok (pub, q)) ∧
      ((runOuts (NATTable.init pub pmin pmax tmo) ks now).2.translate_out
        klast.1 klast.2.1 klast.2.2 now).1 = Except.error () ∧
      ((runOuts (NATTable.init pub pmin pmax tmo) ks now).2.translate_out
        klast.1 klast.2.1 klast.2.2 now).2
        = (runOuts (NATTable.init pub pmin pmax tmo) ks now).2 ∧
      (∀ k ∈ ks, (dget (runOuts (NATTable.init pub pmin pmax tmo) ks now).2.int2ext
        (normKey k)).isSome = true)) := by
  refine ⟨?_, ?_, ?_⟩
  · intro t proto ip iport now p hg hap
    obtain ⟨h1, h2, h3, h4⟩ := allocPort_some hap
    rw [translate_out_alloc now hg hap]
    exact ⟨⟨h1, h2, h3, h4⟩, rfl, dget_dset_self, dget_dset_self⟩
  · intro t proto ip iport now hg
    constructor
    · intro herr
      cases hap : t.allocPort with
      | none => exact allocPort_none_iff.mp hap
      | some p =>
        rw [translate_out_alloc now hg hap] at herr
        exact Except.noConfusion herr
    · intro hall
      rw [translate_out_exhausted now hg (allocPort_none_iff.mpr hall)]
  · intro pub pmin pmax tmo now ks klast hnd hlen
    rw [List.map_append, List.nodup_append] at hnd
    obtain ⟨hndks, _, hdisj⟩ := hnd
    have hfresh : ∀ k ∈ ks, dget (NATTable.init pub pmin pmax tmo).int2ext (normKey k) = none :=
      fun k _ => rfl
    have hroom : (NATTable.init pub pmin pmax tmo).ext2int.length + ks.length
        ≤ (NATTable.init pub pmin pmax tmo).pmax + 1 - (NATTable.init pub pmin pmax tmo).pmin := by
      show 0 + ks.length ≤ pmax + 1 - pmin
      omega
    obtain ⟨h1, h2, h3, h4, h5, h6, h7, h8, h9, h10⟩ :=
      runOuts_spec now ks (NATTable.init pub pmin pmax tmo) (WFn_init pub pmin pmax tmo)
        hndks hfresh hroom
    have hlastfresh : dget (runOuts (NATTable.init pub pmin pmax tmo) ks now).2.int2ext
        (normKey klast) = none := by
      cases hc : dget (runOuts (NATTable.init pub pmin pmax tmo) ks now).2.int2ext
          (normKey klast) with
      | none => rfl
      | some m =>
        have hi : (dget (runOuts (NATTable.init pub pmin pmax tmo) ks now).2.int2ext
            (normKey klast)).isSome = true := by rw [hc]; rfl
        rcases h10 _ hi with h | h
        · rw [show dget (NATTable.init pub pmin pmax tmo).int2ext (normKey klast)
            = none from rfl] at h
          exact Bool.noConfusion h
        · exact absurd (List.mem_map.mpr ⟨klast, List.mem_singleton_self klast, rfl⟩) (hdisj h)
    have hfull : (runOuts (NATTable.init pub pmin pmax tmo) ks now).2.allocPort = none := by
      apply allocPort_none_of_full h2
      rw [h3, h5, h6]
      show pmax + 1 - pmin ≤ 0 + ks.length
      omega
    refine ⟨h1, ?_, ?_, h8⟩
    · rw [translate_out_exhausted now hlastfresh hfull]
    · rw [translate_out_exhausted now hlastfresh hfull]

/-- Witness for C2 on a fresh table with range 50000..50002. -/
theorem C2_translate_out_allocation_witness :
    ((NATTable.init "9.9.9.9" 50000 50002 60).translate_out "UDP" "h" 5 0).1
      = Except.ok ("9.9.9.9", 50000) ∧
    dget ((NATTable.init "9.9.9.9" 50000 50002 60).translate_out "UDP" "h" 5 0).2.int2ext
      ("udp", "h", 5) = some (Mapping.mk "udp" "h" 5 50000 0) ∧
    dget ((((NATTable.init "9.9.9.9" 50000 50002 60).translate_out "udp" "a" 1 0).2.translate_out
      "udp" "b" 2 0).2.translate_out "udp" "c" 3 0).2.ext2int 50001 ≠ none ∧
    ((runOuts (NATTable.init "9.9.9.9" 50000 50002 60)
        [("udp", "a", 1), ("udp", "b", 2), ("udp", "c", 3)] 0).2.translate_out "udp" "d" 4 0).1
      = Except.error () ∧
    (dget (runOuts (NATTable.init "9.9.9.9" 50000 50002 60)
        [("udp", "a", 1), ("udp", "b", 2), ("udp", "c", 3)] 0).2.int2ext
      (normKey ("udp", "a", 1))).isSome = true := by
  refine ⟨?_, ?_, ?_, ?_, ?_⟩
  · exact (C2_translate_out_allocation.1 (NATTable.init "9.9.9.9" 50000 50002 60) "UDP" "h" 5 0
      50000 (by decide) (by decide)).2.1
  · exact (C2_translate_out_allocation.1 (NATTable.init "9.9.9.9" 50000 50002 60) "UDP" "h" 5 0
      50000 (by decide) (by decide)).2.2.1
  · exact (C2_translate_out_allocation.2.1 ((((NATTable.init "9.9.9.9" 50000 50002
      60).translate_out "udp" "a" 1 0).2.translate_out "udp" "b" 2 0).2.translate_out "udp" "c" 3
      0).2 "udp" "x" 9 0 (by decide)).mp (by decide) 50001 (by decide) (by decide)
  · exact (C2_translate_out_allocation.2.2 "9.9.9.9" 50000 50002 60 0
      [("udp", "a", 1), ("udp", "b", 2), ("udp", "c", 3)] ("udp", "d", 4)
      (by decide) (by decide)).2.1
  · exact (C2_translate_out_allocation.2.2 "9.9.9.9" 50000 50002 60 0
      [("udp", "a", 1), ("udp", "b", 2), ("udp", "c", 3)] ("udp", "d", 4)
      (by decide) (by decide)).2.2.2 ("udp", "a", 1) (by decide)

/-- C4 counterexample: translate_out lowercases the protocol before
storing it, so translate_in on the freshly allocated port returns the
lowercased tuple, not the tuple as passed by the caller: with protocol
"TCP" the returned tuple is ("tcp", ...) ≠ ("TCP", ...). -/
theorem C4_counterexample :
    ((NATTable.init "203.0.113.5" 40000 40005 30).translate_out "TCP" "10.0.0.9" 7 0).1
      = Except.ok ("203.0.113.5", 40000) ∧
    (((NATTable.init "203.0.113.5" 40000 40005 30).translate_out "TCP" "10.0.0.9" 7
        0).2.translate_in 40000 none).1 = some ("tcp", "10.0.0.9", 7) ∧
    some (("tcp", "10.0.0.9", 7) : String × String × Nat) ≠ some ("TCP", "10.0.0.9", 7) := by
  refine ⟨by decide, by decide, by decide⟩

/-- C4 (amended): translate_in on the port returned by a fresh allocation
returns the originating tuple with the protocol normalized to lowercase —
exactly the caller's tuple whenever the protocol was already lowercase. -/
theorem C4_fresh_roundtrip (t : NATTable) (proto ip : String) (iport : Nat) (now : Int)
    (p : Nat) (t1 : NATTable) (nowOpt : Option Int)
    (hg : dget t.int2ext (strLower proto, ip, iport) = none)
    (hout : t.translate_out proto ip iport now = (Except.ok (t.public_ip, p), t1)) :
    (t1.translate_in p nowOpt).1 = some (strLower proto, ip, iport) := by
  cases hap : t.allocPort with
  | none =>
    rw [translate_out_exhausted now hg hap, Prod.mk.injEq] at hout
    exact absurd hout.1 (by simp)
  | some p0 =>
    rw [translate_out_alloc now hg hap, Prod.mk.injEq] at hout
    obtain ⟨h1, h2⟩ := hout
    have hp0 : p0 = p := (Prod.mk.injEq _ _ _ _).mp (Except.ok.inj h1) |>.2
    subst hp0
    subst h2
    have hdg : dget (NATTable.mk t.public_ip t.pmin t.pmax t.timeout
        (dset t.int2ext (strLower proto, ip, iport)
          (Mapping.mk (strLower proto) ip iport p0 now))
        (dset t.ext2int p0 (Mapping.mk (strLower proto) ip iport p0 now))).ext2int p0
        = some (Mapping.mk (strLower proto) ip iport p0 now) := dget_dset_self
    unfold NATTable.translate_in
    rw [hdg]
    cases nowOpt with
    | none => rfl
    | some tv => rfl

/-- Witness for C4 (amended) on a fresh table with protocol "TCP". -/
theorem C4_fresh_roundtrip_witness :
    ((((NATTable.init "203.0.113.5" 40000 40005 30).translate_out "TCP" "10.0.0.9" 7
        0).2).translate_in 40000 none).1 = some (strLower "TCP", "10.0.0.9", 7) :=
  C4_fresh_roundtrip (NATTable.init "203.0.113.5" 40000 40005 30) "TCP" "10.0.0.9" 7 0 40000
    (((NATTable.init "203.0.113.5" 40000 40005 30).translate_out "TCP" "10.0.0.9" 7 0).2) none
    (by decide) (by decide)

/-- C9: in every reachable NATTable state, a triple identifies at most one
live mapping, a port is owned by at most one live mapping, both indices
hold exactly the same set of mappings, and every allocated external port
lies in the configured range. -/
theorem C9_nat_invariants (t : NATTable) (hr : NATReach t) :
    (∀ (k : String × String × Nat) (m1 m2 : Mapping),
      (k, m1) ∈ t.int2ext → (k, m2) ∈ t.int2ext → m1 = m2) ∧
    (∀ (p : Nat) (m1 m2 : Mapping),
      (p, m1) ∈ t.ext2int → (p, m2) ∈ t.ext2int → m1 = m2) ∧
    (∀ m : Mapping, m ∈ t.int2ext.map Prod.snd ↔ m ∈ t.ext2int.map Prod.snd) ∧
    (∀ m ∈ t.ext2int.map Prod.snd, t.pmin ≤ m.external_port ∧ m.external_port ≤ t.pmax) := by
  have hwf := natReach_WFn hr
  obtain ⟨ndk, ndp, kk, kp, sy1, sy2, inr⟩ := hwf
  refine ⟨?_, ?_, ?_, ?_⟩
  · intro k m1 m2 h1 h2
    have e1 := mem_dget ndk h1
    have e2 := mem_dget ndk h2
    rw [e1] at e2
    exact (Option.some.injEq _ _).mp e2
  · intro p m1 m2 h1 h2
    have e1 := mem_dget ndp h1
    have e2 := mem_dget ndp h2
    rw [e1] at e2
    exact (Option.some.injEq _ _).mp e2
  · intro m
    constructor
    · intro hm
      obtain ⟨q, hq, hqm⟩ := List.mem_map.mp hm
      subst hqm
      exact List.mem_map.mpr ⟨(q.2.external_port, q.2), dget_mem (sy1 q hq), rfl⟩
    · intro hm
      obtain ⟨q, hq, hqm⟩ := List.mem_map.mp hm
      subst hqm
      exact List.mem_map.mpr ⟨(nkey q.2, q.2), dget_mem (sy2 q hq), rfl⟩
  · intro m hm
    obtain ⟨q, hq, hqm⟩ := List.mem_map.mp hm
    subst hqm
    obtain ⟨hr1, hr2⟩ := inr q hq
    have he : q.2.external_port = q.1 := kp q hq
    omega

/-- Witness for C9 at a concrete reachable table with one binding. -/
theorem C9_nat_invariants_witness :
    ((Mapping.mk "tcp" "10.0.0.1" 77 40000 0)
      ∈ (((NATTable.init "1.2.3.4" 40000 40005 30).translate_out "tcp" "10.0.0.1" 77
        0).2).int2ext.map Prod.snd
      ↔ (Mapping.mk "tcp" "10.0.0.1" 77 40000 0)
      ∈ (((NATTable.init "1.2.3.4" 40000 40005 30).translate_out "tcp" "10.0.0.1" 77
        0).2).ext2int.map Prod.snd) ∧
    ((((NATTable.init "1.2.3.4" 40000 40005 30).translate_out "tcp" "10.0.0.1" 77 0).2).pmin
      ≤ (Mapping.mk "tcp" "10.0.0.1" 77 40000 0).external_port ∧
     (Mapping.mk "tcp" "10.0.0.1" 77 40000 0).external_port
      ≤ (((NATTable.init "1.2.3.4" 40000 40005 30).translate_out "tcp" "10.0.0.1" 77 0).2).pmax) :=
  ⟨(C9_nat_invariants _ (NATReach.out _ "tcp" "10.0.0.1" 77 0
      (NATReach.init "1.2.3.4" 40000 40005 30))).2.2.1 (Mapping.mk "tcp" "10.0.0.1" 77 40000 0),
   (C9_nat_invariants _ (NATReach.out _ "tcp" "10.0.0.1" 77 0
      (NATReach.init "1.2.3.4" 40000 40005 30))).2.2.2 (Mapping.mk "tcp" "10.0.0.1" 77 40000 0)
      (by decide)⟩
